import Mathlib

/-!
Verification development for the cv-context-manager secrets-vault core.

The TypeScript sources are embedded shallowly:
* `EncryptionService` (src/utils/encryption.ts) over a symbolic model of the
  node `crypto` AES-256-GCM primitive: the keystream cipher is an executable
  xor stream, and the GCM auth tag is a symbolic MAC constructor over
  `(key, iv, ciphertext)`; collision resistance of the tag and of SHA-256 is
  idealised as constructor injectivity.  Ciphertext is modelled at the byte
  level (`List Nat`); the hex string of the source is the byte-pair rendering
  of that list.  Randomness (IVs, UUIDs) and the clock are passed explicitly.
* `SecretContextService` (services/SecretContextService.ts) as a state
  machine over an explicit database/cache/audit state, each operation also
  emitting the trace of collaborator calls it performs.
* `DatabaseClient` cache operations (database/client.ts) over backends whose
  calls may throw, modelled with an explicit outcome type.
-/

namespace CVCM

/-! ## Association lists: the model of JS object properties

JS objects preserve (string-key) insertion order; `obj[k] = v` overwrites in
place, `delete obj[k]` removes the property, a read returns the first match.
-/

/-- JS property read `l[k]`. -/
def assocGet {α : Type} (l : List (String × α)) (k : String) : Option α :=
  match l with
  | [] => none
  | (k', v) :: t => if k' = k then some v else assocGet t k

/-- JS property write `l[k] = v`: overwrite in place, else append. -/
def assocSet {α : Type} (l : List (String × α)) (k : String) (v : α) :
    List (String × α) :=
  match l with
  | [] => [(k, v)]
  | (k', v') :: t => if k' = k then (k, v) :: t else (k', v') :: assocSet t k v

/-- JS property removal `delete l[k]`. -/
def assocErase {α : Type} (l : List (String × α)) (k : String) :
    List (String × α) :=
  match l with
  | [] => []
  | (k', v') :: t => if k' = k then t else (k', v') :: assocErase t k

theorem assocGet_assocSet {α : Type} (l : List (String × α)) (k k' : String)
    (v : α) :
    assocGet (assocSet l k v) k' = if k = k' then some v else assocGet l k' := by
  induction l with
  | nil => by_cases h : k = k' <;> simp [assocSet, assocGet, h]
  | cons hd t ih =>
    obtain ⟨k₀, v₀⟩ := hd
    by_cases h0 : k₀ = k
    · subst h0
      by_cases h : k₀ = k' <;> simp [assocSet, assocGet, h]
    · by_cases h1 : k₀ = k'
      · subst h1
        have hk : ¬k = k₀ := fun h => h0 h.symm
        simp [assocSet, assocGet, h0, hk]
      · simp [assocSet, assocGet, h0, h1, ih]

theorem assocGet_assocErase {α : Type} (l : List (String × α)) (k k' : String)
    (hne : k ≠ k') :
    assocGet (assocErase l k) k' = assocGet l k' := by
  induction l with
  | nil => simp [assocErase, assocGet]
  | cons hd t ih =>
    obtain ⟨k₀, v₀⟩ := hd
    by_cases h0 : k₀ = k
    · subst h0
      simp [assocErase, assocGet, hne]
    · simp [assocErase, assocGet, h0, ih]

/-! ## Encryption engine (src/utils/encryption.ts) -/

/-- Symbolic GCM authentication tag: `crypto`'s tag over `(key, iv, ct)`.
Collision resistance is idealised as injectivity of the constructor. -/
inductive Tag where
  | mac (key : Nat) (iv : Nat) (ciphertext : List Nat) : Tag
deriving DecidableEq, Repr

/-- Symbolic SHA-256 digest (`crypto.createHash('sha256')...digest('hex')`);
the 64-char hex output is modelled as a constructor over the input. -/
inductive Digest where
  | sha256 (data : String) : Digest
deriving DecidableEq, Repr

/-- One byte of the modelled AES-CTR keystream for `(key, iv)` at offset `i`. -/
def keystream (key iv i : Nat) : Nat :=
  (key + iv * 131 + i * 17) % 256

/-- The cipher body of `cipher.update/final`: xor each code unit of the
plaintext with the keystream.  (The source works on the utf-8 bytes and
renders them in hex; we model the byte stream at character granularity.) -/
def encodeStream (key iv : Nat) : Nat → List Char → List Nat
  | _, [] => []
  | i, c :: cs => (c.toNat ^^^ keystream key iv i) :: encodeStream key iv (i + 1) cs

/-- The decipher body of `decipher.update/final` (after tag verification). -/
def decodeStream (key iv : Nat) : Nat → List Nat → List Char
  | _, [] => []
  | i, b :: bs => Char.ofNat (b ^^^ keystream key iv i) :: decodeStream key iv (i + 1) bs

theorem decodeStream_encodeStream (key iv : Nat) (cs : List Char) :
    ∀ i, decodeStream key iv i (encodeStream key iv i cs) = cs := by
  induction cs with
  | nil => intro i; rfl
  | cons c t ih =>
    intro i
    simp [encodeStream, decodeStream, Nat.xor_cancel_right, Char.ofNat_toNat, ih]

/-- `EncryptedValue` (src/types): the ciphertext envelope.  `encrypted_data`
is the byte list behind the hex string of the source; timestamps are
milliseconds since epoch (`Date` values). -/
structure EncryptedValue where
  encrypted_data : List Nat
  algorithm : String
  iv : Nat
  created_at : Nat
  expires_at : Option Nat
  auth_tag : Option Tag
  key_version : String
deriving DecidableEq, Repr

/-- `EncryptionService`: holds the derived 256-bit key and the key version. -/
structure EncryptionService where
  key : Nat
  keyVersion : String
deriving DecidableEq, Repr

/-- Model of `crypto.scryptSync(encryptionKey, 'controlvector-salt', 32)`:
a symbolic slow key derivation, injective on its input by construction. -/
def scryptSync (encryptionKey salt : String) : Nat :=
  (encryptionKey ++ "|" ++ salt).data.foldl (fun a c => a * 1114112 + c.toNat + 1) 7

/-- The `EncryptionService` constructor. -/
def EncryptionService.create (encryptionKey keyVersion : String) : EncryptionService :=
  { key := scryptSync encryptionKey "controlvector-salt", keyVersion := keyVersion }

/-- `encrypt(plaintext, expiresAt?)`.  The fresh random IV and the clock are
explicit arguments. -/
def EncryptionService.encrypt (svc : EncryptionService) (iv now : Nat)
    (plaintext : String) (expiresAt : Option Nat) : EncryptedValue :=
  let ct := encodeStream svc.key iv 0 plaintext.data
  { encrypted_data := ct
    algorithm := "aes-256-gcm"
    iv := iv
    created_at := now
    expires_at := expiresAt
    auth_tag := some (Tag.mac svc.key iv ct)
    key_version := svc.keyVersion }

/-- The errors `decrypt` can throw: expiry, tag mismatch (also a missing or
empty tag, where `decipher.final` throws), or `createDecipheriv` rejecting
the envelope's algorithm string. -/
inductive DecryptError where
  | expired
  | integrity
  | invalidInput
deriving DecidableEq, Repr

/-- The expiry test `expires_at && new Date(expires_at) < new Date()`. -/
def isExpiredAt (expiresAt : Option Nat) (now : Nat) : Bool :=
  match expiresAt with
  | some e => e < now
  | none => false

/-- `decrypt(encryptedValue)`: expiry first, then the tag check, then the
stream decode — a thrown error is an `Except.error`. -/
def EncryptionService.decrypt (svc : EncryptionService) (now : Nat)
    (env : EncryptedValue) : Except DecryptError String :=
  if isExpiredAt env.expires_at now then .error .expired
  else if env.algorithm ≠ "aes-256-gcm" then .error .invalidInput
  else
    match env.auth_tag with
    | none => .error .integrity
    | some t =>
      if t = Tag.mac svc.key env.iv env.encrypted_data then
        .ok (String.mk (decodeStream svc.key env.iv 0 env.encrypted_data))
      else .error .integrity

/-- `verify(encryptedValue)`: attempt `decrypt`, swallow the error. -/
def EncryptionService.verify (svc : EncryptionService) (now : Nat)
    (env : EncryptedValue) : Bool :=
  match svc.decrypt now env with
  | .ok _ => true
  | .error _ => false

/-- `hash(data)`: SHA-256 hex digest for audit correlation. -/
def EncryptionService.hash (_svc : EncryptionService) (data : String) : Digest :=
  .sha256 data

theorem decrypt_encrypt (svc : EncryptionService) (iv now now' : Nat)
    (p : String) (exp : Option Nat) (h : isExpiredAt exp now' = false) :
    svc.decrypt now' (svc.encrypt iv now p exp) = .ok p := by
  simp [EncryptionService.encrypt, EncryptionService.decrypt, h,
    decodeStream_encodeStream]

/-! ## JSON values (the dynamic documents of `encryptObject`/`decryptObject`)

`JVal` models a plain JSON-representable JS value.  `jsonStringify` is
`JSON.stringify` (insertion order, standard escaping, no spacing);
`jsonParse` models `JSON.parse`: it succeeds exactly on JSON texts
(whitespace, escapes, fraction/exponent numerics); values of non-integral
numerics are approximated by their integer part and are not relied on by any
theorem. -/

inductive JVal where
  | null
  | bool (b : Bool)
  | num (n : Int)
  | str (s : String)
  | arr (elems : List JVal)
  | obj (fields : List (String × JVal))
deriving Repr

mutual
def JVal.beq : JVal → JVal → Bool
  | .null, .null => true
  | .bool a, .bool b => a = b
  | .num a, .num b => a = b
  | .str a, .str b => a = b
  | .arr a, .arr b => JVal.beqList a b
  | .obj a, .obj b => JVal.beqFields a b
  | _, _ => false
def JVal.beqList : List JVal → List JVal → Bool
  | [], [] => true
  | a :: as, b :: bs => JVal.beq a b && JVal.beqList as bs
  | _, _ => false
def JVal.beqFields : List (String × JVal) → List (String × JVal) → Bool
  | [], [] => true
  | (k, a) :: as, (k', b) :: bs => k = k' && JVal.beq a b && JVal.beqFields as bs
  | _, _ => false
end

mutual
theorem JVal.beq_iff : ∀ a b : JVal, JVal.beq a b = true ↔ a = b
  | .null, b => by cases b <;> simp [JVal.beq]
  | .bool x, b => by cases b <;> simp [JVal.beq]
  | .num x, b => by cases b <;> simp [JVal.beq]
  | .str x, b => by cases b <;> simp [JVal.beq]
  | .arr es, b => by
      cases b <;> simp [JVal.beq]
      exact JVal.beqList_iff es _
  | .obj fs, b => by
      cases b <;> simp [JVal.beq]
      exact JVal.beqFields_iff fs _
theorem JVal.beqList_iff : ∀ a b : List JVal, JVal.beqList a b = true ↔ a = b
  | [], b => by cases b <;> simp [JVal.beqList]
  | v :: vs, b => by
      cases b <;> simp [JVal.beqList]
      rw [JVal.beq_iff v _, JVal.beqList_iff vs _]
theorem JVal.beqFields_iff : ∀ a b : List (String × JVal),
    JVal.beqFields a b = true ↔ a = b
  | [], b => by cases b <;> simp [JVal.beqFields]
  | (k, v) :: vs, b => by
      cases b with
      | nil => simp [JVal.beqFields]
      | cons hb tb =>
        obtain ⟨l, w⟩ := hb
        simp [JVal.beqFields]
        rw [JVal.beq_iff v _, JVal.beqFields_iff vs _]
end

instance : DecidableEq JVal := fun a b =>
  decidable_of_iff (JVal.beq a b = true) (JVal.beq_iff a b)

/-! ### `JSON.stringify` -/

/-- Lowercase hex digit, as in the source's `'hex'` encodings. -/
def hexDigitChar (n : Nat) : Char :=
  if n < 10 then Char.ofNat (48 + n) else Char.ofNat (87 + n)

/-- `JSON.stringify`'s escape of a single string character. -/
def escapeChar (c : Char) : List Char :=
  if c = '"' then ['\\', '"']
  else if c = '\\' then ['\\', '\\']
  else if c = '\x08' then ['\\', 'b']
  else if c = '\x09' then ['\\', 't']
  else if c = '\x0a' then ['\\', 'n']
  else if c = '\x0c' then ['\\', 'f']
  else if c = '\x0d' then ['\\', 'r']
  else if c.toNat < 32 then
    ['\\', 'u', '0', '0', hexDigitChar (c.toNat / 16), hexDigitChar (c.toNat % 16)]
  else [c]

def escapeChars : List Char → List Char
  | [] => []
  | c :: cs => escapeChar c ++ escapeChars cs

/-- A JSON string literal, quotes included. -/
def strLitChars (s : String) : List Char :=
  '"' :: (escapeChars s.data ++ ['"'])

/-- Canonical decimal rendering, most significant digit first; the first
argument is recursion fuel (any bound on the digit count works). -/
def natCharsAux : Nat → Nat → List Char → List Char
  | 0, _, acc => acc
  | _ + 1, 0, acc => acc
  | fuel + 1, n, acc => natCharsAux fuel (n / 10) (Char.ofNat (48 + n % 10) :: acc)

/-- Canonical decimal rendering of a natural number. -/
def natChars (n : Nat) : List Char :=
  if n = 0 then ['0'] else natCharsAux n n []

theorem natCharsAux_eq_digits (fuel : Nat) :
    ∀ n acc, n ≤ fuel →
      natCharsAux fuel n acc =
        ((Nat.digits 10 n).reverse.map fun d => Char.ofNat (48 + d)) ++ acc := by
  induction fuel with
  | zero =>
    intro n acc hn
    interval_cases n
    simp [natCharsAux]
  | succ fuel ih =>
    intro n acc hn
    rcases Nat.eq_zero_or_pos n with h0 | hpos
    · subst h0; simp [natCharsAux]
    · rw [show natCharsAux (fuel + 1) n acc
          = natCharsAux fuel (n / 10) (Char.ofNat (48 + n % 10) :: acc) by
        cases n with
        | zero => exact absurd rfl (Nat.pos_iff_ne_zero.mp hpos)
        | succ m => rfl]
      rw [ih (n / 10) _
        (by have := Nat.div_lt_self hpos (by norm_num : 1 < 10); omega)]
      rw [Nat.digits_def' (by norm_num : (1 : Nat) < 10) hpos]
      simp

theorem natChars_eq_digits (n : Nat) (hn : n ≠ 0) :
    natChars n = (Nat.digits 10 n).reverse.map fun d => Char.ofNat (48 + d) := by
  rw [natChars, if_neg hn, natCharsAux_eq_digits n n _ le_rfl]
  simp

def intChars : Int → List Char
  | .ofNat n => natChars n
  | .negSucc m => '-' :: natChars (m + 1)

mutual
def jChars : JVal → List Char
  | .num n => intChars n
  | .str s => strLitChars s
  | .arr es => '[' :: (jCharsArr es ++ [']'])
  | .obj fs => '\x7b' :: (jCharsObj fs ++ ['\x7d'])
  | .bool true => 't' :: ['r', 'u', 'e']
  | .bool false => 'f' :: ['a', 'l', 's', 'e']
  | .null => 'n' :: ['u', 'l', 'l']
def jCharsArr : List JVal → List Char
  | [] => []
  | [v] => jChars v
  | v :: vs => jChars v ++ ',' :: jCharsArr vs
def jCharsObj : List (String × JVal) → List Char
  | [] => []
  | [(k, v)] => strLitChars k ++ ':' :: jChars v
  | (k, v) :: fs => strLitChars k ++ ':' :: jChars v ++ ',' :: jCharsObj fs
end

/-- `JSON.stringify(v)` (no spacing argument, as in the source). -/
def jsonStringify (v : JVal) : String :=
  String.mk (jChars v)

/-! ### `JSON.parse` -/

/-- JSON insignificant whitespace. -/
def isJsonWs (c : Char) : Bool :=
  c.toNat = 32 || c.toNat = 9 || c.toNat = 10 || c.toNat = 13

def skipWs : List Char → List Char
  | [] => []
  | c :: cs => if isJsonWs c then skipWs cs else c :: cs

def isDigitChar (c : Char) : Bool :=
  48 ≤ c.toNat && c.toNat ≤ 57

def digitVal? (c : Char) : Option Nat :=
  if isDigitChar c then some (c.toNat - 48) else none

def hexVal? (c : Char) : Option Nat :=
  if isDigitChar c then some (c.toNat - 48)
  else if 97 ≤ c.toNat && c.toNat ≤ 102 then some (c.toNat - 87)
  else if 65 ≤ c.toNat && c.toNat ≤ 70 then some (c.toNat - 55)
  else none

/-- Greedily consume decimal digits. -/
def takeDigits : List Char → List Nat × List Char
  | [] => ([], [])
  | c :: cs =>
    match digitVal? c with
    | some d =>
      let r := takeDigits cs
      (d :: r.1, r.2)
    | none => ([], c :: cs)

def digitsToNat (ds : List Nat) : Nat :=
  ds.foldl (fun a d => a * 10 + d) 0

def parseHex4 : List Char → Option (Nat × List Char)
  | a :: b :: c :: d :: rest =>
    match hexVal? a, hexVal? b, hexVal? c, hexVal? d with
    | some x, some y, some z, some w => some (((x * 16 + y) * 16 + z) * 16 + w, rest)
    | _, _, _, _ => none
  | _ => none

/-- The body of a JSON string literal after the opening quote; returns the
decoded characters and the input after the closing quote.  Surrogate pairs in
`\u` escapes are combined; a lone surrogate (unrepresentable as a scalar
value) falls back to `Char.ofNat`'s default. -/
def parseStrBody : Nat → List Char → Option (List Char × List Char)
  | 0, _ => none
  | _ + 1, [] => none
  | fuel + 1, c :: cs =>
    if c = '"' then some ([], cs)
    else if c = '\\' then
      match cs with
      | [] => none
      | e :: cs' =>
        if e = '"' then (parseStrBody fuel cs').map fun r => ('"' :: r.1, r.2)
        else if e = '\\' then (parseStrBody fuel cs').map fun r => ('\\' :: r.1, r.2)
        else if e = '/' then (parseStrBody fuel cs').map fun r => ('/' :: r.1, r.2)
        else if e = 'b' then (parseStrBody fuel cs').map fun r => ('\x08' :: r.1, r.2)
        else if e = 'f' then (parseStrBody fuel cs').map fun r => ('\x0c' :: r.1, r.2)
        else if e = 'n' then (parseStrBody fuel cs').map fun r => ('\x0a' :: r.1, r.2)
        else if e = 'r' then (parseStrBody fuel cs').map fun r => ('\x0d' :: r.1, r.2)
        else if e = 't' then (parseStrBody fuel cs').map fun r => ('\x09' :: r.1, r.2)
        else if e = 'u' then
          match parseHex4 cs' with
          | none => none
          | some (n, cs'') =>
            if 55296 ≤ n ∧ n ≤ 56319 then
              match cs'' with
              | '\\' :: 'u' :: cs3 =>
                match parseHex4 cs3 with
                | some (m, cs4) =>
                  if 56320 ≤ m ∧ m ≤ 57343 then
                    (parseStrBody fuel cs4).map fun r =>
                      (Char.ofNat (65536 + (n - 55296) * 1024 + (m - 56320)) :: r.1, r.2)
                  else (parseStrBody fuel cs'').map fun r => (Char.ofNat n :: r.1, r.2)
                | none => (parseStrBody fuel cs'').map fun r => (Char.ofNat n :: r.1, r.2)
              | _ => (parseStrBody fuel cs'').map fun r => (Char.ofNat n :: r.1, r.2)
            else (parseStrBody fuel cs'').map fun r => (Char.ofNat n :: r.1, r.2)
        else none
    else if c.toNat < 32 then none
    else (parseStrBody fuel cs).map fun r => (c :: r.1, r.2)

/-- Exponent suffix of a JSON number: `[eE][+-]?digits`, or nothing. -/
def parseExpPart (cs : List Char) : Option (List Char) :=
  match cs with
  | c :: t =>
    if c = 'e' ∨ c = 'E' then
      let t2 := match t with
        | '+' :: u => u
        | '-' :: u => u
        | u => u
      match takeDigits t2 with
      | ([], _) => none
      | (_ :: _, r) => some r
    else some (c :: t)
  | [] => some []

/-- Fraction and exponent suffix of a JSON number. -/
def parseFracExp (cs : List Char) : Option (List Char) :=
  match cs with
  | '.' :: t =>
    match takeDigits t with
    | ([], _) => none
    | (_ :: _, r) => parseExpPart r
  | _ => parseExpPart cs

/-- The unsigned part of a JSON number: `0|[1-9]digits`, then an optional
fraction and exponent; yields the integer part and the remaining input. -/
def parseNumCore (cs : List Char) : Option (Nat × List Char) :=
  match cs with
  | [] => none
  | c :: t =>
    match digitVal? c with
    | none => none
    | some d =>
      let ipr : Nat × List Char :=
        if d = 0 then (0, t)
        else
          let r := takeDigits t
          (digitsToNat (d :: r.1), r.2)
      (parseFracExp ipr.2).map fun rest => (ipr.1, rest)

/-- A JSON number token.  Values with a fraction or exponent part parse
successfully (as they do under `JSON.parse`) but are approximated by their
integer part; no theorem depends on such a value. -/
def parseNum (cs : List Char) : Option (JVal × List Char) :=
  if cs.head? = some '-' then
    (parseNumCore cs.tail).map fun r => (.num (-(r.1 : Int)), r.2)
  else
    (parseNumCore cs).map fun r => (.num (r.1 : Int), r.2)

mutual
/-- One JSON value, leading whitespace allowed. -/
def parseVal : Nat → List Char → Option (JVal × List Char)
  | 0, _ => none
  | fuel + 1, cs =>
    match skipWs cs with
    | 'n' :: 'u' :: 'l' :: 'l' :: rest => some (.null, rest)
    | 't' :: 'r' :: 'u' :: 'e' :: rest => some (.bool true, rest)
    | 'f' :: 'a' :: 'l' :: 's' :: 'e' :: rest => some (.bool false, rest)
    | '"' :: rest =>
      (parseStrBody (rest.length + 1) rest).map fun r => (.str (String.mk r.1), r.2)
    | '[' :: rest =>
      if (skipWs rest).head? = some ']' then some (.arr [], (skipWs rest).tail)
      else (parseElems fuel (skipWs rest)).map fun r => (.arr r.1, r.2)
    | '\x7b' :: rest =>
      if (skipWs rest).head? = some '\x7d' then some (.obj [], (skipWs rest).tail)
      else (parseFields fuel (skipWs rest)).map fun r => (.obj r.1, r.2)
    | cs' => parseNum cs'
/-- `v (',' v)* ']'` (at least one element). -/
def parseElems : Nat → List Char → Option (List JVal × List Char)
  | 0, _ => none
  | fuel + 1, cs =>
    match parseVal fuel cs with
    | none => none
    | some (v, r1) => afterElem fuel v r1
/-- After one array element: a comma continues, `]` closes. -/
def afterElem : Nat → JVal → List Char → Option (List JVal × List Char)
  | 0, _, _ => none
  | fuel + 1, v, r1 =>
    match skipWs r1 with
    | ',' :: r2 => (parseElems fuel r2).map fun r => (v :: r.1, r.2)
    | ']' :: r2 => some ([v], r2)
    | _ => none
/-- `k ':' v (',' k ':' v)* '\x7d'` (at least one member). -/
def parseFields : Nat → List Char → Option (List (String × JVal) × List Char)
  | 0, _ => none
  | fuel + 1, cs =>
    match skipWs cs with
    | '"' :: rest =>
      match parseStrBody (rest.length + 1) rest with
      | none => none
      | some (kcs, r1) =>
        match skipWs r1 with
        | ':' :: r2 => fieldValue fuel (String.mk kcs) r2
        | _ => none
    | _ => none
/-- The value of one object member, after its key and colon. -/
def fieldValue : Nat → String → List Char → Option (List (String × JVal) × List Char)
  | 0, _, _ => none
  | fuel + 1, k, r2 =>
    match parseVal fuel r2 with
    | none => none
    | some (v, r3) => afterField fuel k v r3
/-- After one object member: a comma continues, `\x7d` closes. -/
def afterField : Nat → String → JVal → List Char → Option (List (String × JVal) × List Char)
  | 0, _, _, _ => none
  | fuel + 1, k, v, r3 =>
    match skipWs r3 with
    | ',' :: r4 => (parseFields fuel r4).map fun r => ((k, v) :: r.1, r.2)
    | '\x7d' :: r4 => some ([(k, v)], r4)
    | _ => none
end

/-- `JSON.parse(s)`: `none` models a thrown `SyntaxError`. -/
def jsonParse (s : String) : Option JVal :=
  match parseVal (s.length + 1) s.data with
  | some (v, rest) => if skipWs rest = [] then some v else none
  | none => none

/-! ### `jsonParse (jsonStringify v) = some v` -/

theorem toNat_ofNat_small (n : Nat) (h : n < 55296) : (Char.ofNat n).toNat = n := by
  have hv : n.isValidChar := Or.inl h
  unfold Char.ofNat
  rw [dif_pos hv]
  unfold Char.ofNatAux Char.toNat
  simp [UInt32.toNat, BitVec.toNat_ofNatLt]

theorem skipWs_cons (c : Char) (cs : List Char) (h : isJsonWs c = false) :
    skipWs (c :: cs) = c :: cs := by
  simp [skipWs, h]

theorem hexVal?_hexDigitChar (d : Nat) (hd : d < 16) :
    hexVal? (hexDigitChar d) = some d := by
  interval_cases d <;> decide

theorem digitVal?_digit (d : Nat) (hd : d < 10) :
    digitVal? (Char.ofNat (48 + d)) = some d := by
  interval_cases d <;> decide

theorem takeDigits_append (ds : List Nat) (rest : List Char)
    (hds : ∀ d ∈ ds, d < 10)
    (hrest : ∀ c cs, rest = c :: cs → isDigitChar c = false) :
    takeDigits ((ds.map fun d => Char.ofNat (48 + d)) ++ rest) = (ds, rest) := by
  induction ds with
  | nil =>
    cases rest with
    | nil => rfl
    | cons c cs =>
      simp [takeDigits, digitVal?, hrest c cs rfl]
  | cons d ds ih =>
    have hmem : ∀ x ∈ ds, x < 10 := fun x hx => hds x (List.mem_cons_of_mem d hx)
    simp [takeDigits, digitVal?_digit d (hds d (List.mem_cons_self d ds)), ih hmem]

theorem foldl_reverse_ofDigits (l : List Nat) :
    l.reverse.foldl (fun a d => a * 10 + d) 0 = Nat.ofDigits 10 l := by
  induction l with
  | nil => simp [Nat.ofDigits]
  | cons d ds ih =>
    simp only [List.reverse_cons, List.foldl_append, List.foldl_cons, List.foldl_nil,
      Nat.ofDigits_cons, ih]
    ring

theorem digitsToNat_digits (n : Nat) :
    digitsToNat (Nat.digits 10 n).reverse = n := by
  rw [digitsToNat, foldl_reverse_ofDigits, Nat.ofDigits_digits]

theorem parseStrBody_escapes (cs : List Char) :
    ∀ (fuel : Nat) (rest : List Char),
      (escapeChars cs).length + 1 ≤ fuel →
      parseStrBody fuel (escapeChars cs ++ '"' :: rest) = some (cs, rest) := by
  induction cs with
  | nil =>
    intro fuel rest h
    obtain ⟨f, rfl⟩ : ∃ f, fuel = f + 1 := ⟨fuel - 1, by omega⟩
    simp [escapeChars, parseStrBody]
  | cons c t ih =>
    intro fuel rest h
    rw [escapeChars] at h ⊢
    obtain ⟨f, rfl⟩ : ∃ f, fuel = f + 1 :=
      ⟨fuel - 1, by have := List.length_append (escapeChar c) (escapeChars t); omega⟩
    have hf : (escapeChars t).length + 1 ≤ f := by
      have h1 : 1 ≤ (escapeChar c).length := by
        unfold escapeChar
        repeat' split
        all_goals simp
      simp only [List.length_append] at h
      omega
    by_cases h1 : c = '"'
    · subst h1
      simp [escapeChar, parseStrBody, ih f rest hf]
    · by_cases h2 : c = '\\'
      · subst h2
        simp [escapeChar, parseStrBody, ih f rest hf]
      · by_cases h3 : c = '\x08'
        · subst h3
          simp [escapeChar, parseStrBody, ih f rest hf]
        · by_cases h4 : c = '\x09'
          · subst h4
            simp [escapeChar, parseStrBody, ih f rest hf]
          · by_cases h5 : c = '\x0a'
            · subst h5
              simp [escapeChar, parseStrBody, ih f rest hf]
            · by_cases h6 : c = '\x0c'
              · subst h6
                simp [escapeChar, parseStrBody, ih f rest hf]
              · by_cases h7 : c = '\x0d'
                · subst h7
                  simp [escapeChar, parseStrBody, ih f rest hf]
                · by_cases h8 : c.toNat < 32
                  · rw [show escapeChar c =
                        ['\\', 'u', '0', '0', hexDigitChar (c.toNat / 16),
                          hexDigitChar (c.toNat % 16)] by
                      simp [escapeChar, h1, h2, h3, h4, h5, h6, h7, h8]]
                    have hdiv : c.toNat / 16 < 16 := by omega
                    have hmod : c.toNat % 16 < 16 := by omega
                    have hhex : parseHex4 ('0' :: '0' :: hexDigitChar (c.toNat / 16) ::
                          hexDigitChar (c.toNat % 16) :: (escapeChars t ++ '"' :: rest))
                        = some (c.toNat, escapeChars t ++ '"' :: rest) := by
                      simp only [parseHex4, show hexVal? '0' = some 0 from by decide,
                        hexVal?_hexDigitChar _ hdiv, hexVal?_hexDigitChar _ hmod,
                        Option.some.injEq, Prod.mk.injEq]
                      exact ⟨by omega, trivial⟩
                    rw [show (['\\', 'u', '0', '0', hexDigitChar (c.toNat / 16),
                          hexDigitChar (c.toNat % 16)] : List Char) ++ escapeChars t ++ '"' :: rest
                        = '\\' :: 'u' :: '0' :: '0' :: hexDigitChar (c.toNat / 16) ::
                          hexDigitChar (c.toNat % 16) :: (escapeChars t ++ '"' :: rest) by simp]
                    simp [parseStrBody, hhex, ih f rest hf, Char.ofNat_toNat,
                      show ¬(55296 ≤ c.toNat ∧ c.toNat ≤ 56319) from by omega]
                  · rw [show escapeChar c = [c] by
                      simp [escapeChar, h1, h2, h3, h4, h5, h6, h7, h8]]
                    rw [show ([c] : List Char) ++ escapeChars t ++ '"' :: rest
                        = c :: (escapeChars t ++ '"' :: rest) by simp]
                    rw [parseStrBody.eq_def]
                    simp [h1, h2, h8, ih f rest hf]

/-- The character after a rendered number never extends the numeric token in
the contexts produced by `jsonStringify` (end of input, `,`, `]`, `\x7d`). -/
def numBoundary : List Char → Bool
  | [] => true
  | c :: _ => !(isDigitChar c || c = '.' || c = 'e' || c = 'E')

theorem parseExpPart_boundary (cs : List Char) (hb : numBoundary cs = true) :
    parseExpPart cs = some cs := by
  cases cs with
  | nil => rfl
  | cons c t =>
    have he : c ≠ 'e' := by intro h; subst h; simp [numBoundary] at hb
    have hE : c ≠ 'E' := by intro h; subst h; simp [numBoundary] at hb
    simp [parseExpPart, he, hE]

theorem parseFracExp_boundary (cs : List Char) (hb : numBoundary cs = true) :
    parseFracExp cs = some cs := by
  cases cs with
  | nil => rfl
  | cons c t =>
    have hdot : c ≠ '.' := by intro h; subst h; simp [numBoundary] at hb
    rw [parseFracExp.eq_def]
    split
    · rename_i t' heq
      exact absurd (List.cons.injEq .. ▸ heq).1 hdot
    · exact parseExpPart_boundary _ hb

theorem natChars_head (m : Nat) :
    ∃ d cs, natChars m = Char.ofNat (48 + d) :: cs ∧ d < 10 := by
  by_cases h0 : m = 0
  · subst h0
    exact ⟨0, [], by decide, by norm_num⟩
  · rw [natChars_eq_digits m h0]
    have hne : Nat.digits 10 m ≠ [] := Nat.digits_ne_nil_iff_ne_zero.mpr h0
    have hne' : (Nat.digits 10 m).reverse ≠ [] := by simpa using hne
    obtain ⟨d₀, ds, hrev⟩ := List.exists_cons_of_ne_nil hne'
    refine ⟨d₀, ds.map fun d => Char.ofNat (48 + d), by rw [hrev]; rfl, ?_⟩
    have hmem : d₀ ∈ Nat.digits 10 m := by
      rw [← List.mem_reverse, hrev]; exact List.mem_cons_self d₀ ds
    exact Nat.digits_lt_base (by norm_num) hmem

theorem natChars_head_digit_ne_zero (m : Nat) (h0 : m ≠ 0) :
    ∀ d cs, natChars m = Char.ofNat (48 + d) :: cs → d < 10 → d ≠ 0 := by
  intro d cs hchars hd
  rw [natChars_eq_digits m h0] at hchars
  have hne : Nat.digits 10 m ≠ [] := Nat.digits_ne_nil_iff_ne_zero.mpr h0
  have hne' : (Nat.digits 10 m).reverse ≠ [] := by simpa using hne
  obtain ⟨d₀, ds, hrev⟩ := List.exists_cons_of_ne_nil hne'
  have hmem : d₀ ∈ Nat.digits 10 m := by
    rw [← List.mem_reverse, hrev]; exact List.mem_cons_self d₀ ds
  have hd₀ : d₀ < 10 := Nat.digits_lt_base (by norm_num) hmem
  have hlast : (Nat.digits 10 m).getLast? = some d₀ := by
    rw [← List.head?_reverse, hrev]; rfl
  have hnz : d₀ ≠ 0 := by
    have h1 := Nat.getLast_digit_ne_zero 10 h0
    rw [List.getLast?_eq_getLast _ hne, Option.some.injEq] at hlast
    rw [← hlast]
    exact h1
  rw [hrev] at hchars
  simp only [List.map_cons, List.cons.injEq] at hchars
  have : (Char.ofNat (48 + d₀)).toNat = (Char.ofNat (48 + d)).toNat := by
    rw [hchars.1]
  rw [toNat_ofNat_small _ (by omega), toNat_ofNat_small _ (by omega)] at this
  omega

theorem parseNumCore_natChars (m : Nat) (rest : List Char)
    (hb : numBoundary rest = true) :
    parseNumCore (natChars m ++ rest) = some (m, rest) := by
  have hboundary : ∀ c cs, rest = c :: cs → isDigitChar c = false := by
    intro c cs h
    subst h
    simp [numBoundary] at hb
    exact hb.1.1.1
  by_cases h0 : m = 0
  · subst h0
    rw [show natChars 0 = ['0'] from rfl]
    simp [parseNumCore, show digitVal? '0' = some 0 from by decide,
      parseFracExp_boundary rest hb]
  · rw [natChars_eq_digits m h0]
    have hne : Nat.digits 10 m ≠ [] := Nat.digits_ne_nil_iff_ne_zero.mpr h0
    have hne' : (Nat.digits 10 m).reverse ≠ [] := by simpa using hne
    obtain ⟨d₀, ds, hrev⟩ := List.exists_cons_of_ne_nil hne'
    have hmem : ∀ d ∈ (Nat.digits 10 m).reverse, d < 10 := by
      intro d hd
      exact Nat.digits_lt_base (by norm_num) (List.mem_reverse.mp hd)
    have hd₀ : d₀ < 10 := hmem d₀ (by rw [hrev]; exact List.mem_cons_self d₀ ds)
    have hd₀nz : d₀ ≠ 0 := by
      refine natChars_head_digit_ne_zero m h0 d₀ (ds.map fun d => Char.ofNat (48 + d)) ?_ hd₀
      rw [natChars_eq_digits m h0, hrev]; rfl
    have hds : ∀ d ∈ ds, d < 10 := fun d hd =>
      hmem d (by rw [hrev]; exact List.mem_cons_of_mem d₀ hd)
    rw [hrev]
    simp only [List.map_cons, List.cons_append]
    rw [parseNumCore]
    rw [digitVal?_digit d₀ hd₀]
    simp only [if_neg hd₀nz]
    rw [takeDigits_append ds rest hds hboundary]
    have hval : digitsToNat (d₀ :: ds) = m := by
      rw [← hrev, digitsToNat_digits]
    simp [hval, parseFracExp_boundary rest hb]

theorem parseNum_intChars (n : Int) (rest : List Char)
    (hb : numBoundary rest = true) :
    parseNum (intChars n ++ rest) = some (.num n, rest) := by
  cases n with
  | ofNat m =>
    obtain ⟨d, cs, hchars, hd⟩ := natChars_head m
    have hic : intChars (Int.ofNat m) = natChars m := rfl
    have hneg : ¬((natChars m ++ rest).head? = some '-') := by
      rw [hchars]
      simp only [List.cons_append, List.head?_cons, Option.some.injEq]
      intro h
      have h2 := congrArg Char.toNat h
      rw [toNat_ofNat_small _ (by omega), show Char.toNat '-' = 45 from rfl] at h2
      omega
    rw [hic, parseNum, if_neg hneg, parseNumCore_natChars m rest hb]
    rfl
  | negSucc m =>
    have hic : intChars (Int.negSucc m) ++ rest = '-' :: (natChars (m + 1) ++ rest) := by
      simp [intChars]
    rw [hic, parseNum,
      if_pos (show ('-' :: (natChars (m + 1) ++ rest)).head? = some '-' from rfl)]
    simp only [List.tail_cons]
    rw [parseNumCore_natChars (m + 1) rest hb]
    simp [Int.negSucc_eq]

/-- Every rendered value starts with a non-whitespace character that is not a
closing delimiter. -/
theorem jChars_cons (v : JVal) :
    ∃ c cs, jChars v = c :: cs ∧ isJsonWs c = false ∧ c ≠ ']' := by
  cases v with
  | null => exact ⟨'n', _, rfl, by decide, by decide⟩
  | bool b =>
    cases b with
    | true => exact ⟨'t', _, rfl, by decide, by decide⟩
    | false => exact ⟨'f', _, rfl, by decide, by decide⟩
  | num n =>
    cases n with
    | ofNat m =>
      obtain ⟨d, cs, hchars, hd⟩ := natChars_head m
      have ht : (Char.ofNat (48 + d)).toNat = 48 + d := toNat_ofNat_small _ (by omega)
      refine ⟨Char.ofNat (48 + d), cs, ?_, ?_, ?_⟩
      · rw [show jChars (JVal.num (Int.ofNat m)) = natChars m from rfl, hchars]
      · simp only [isJsonWs, ht]
        simp only [Bool.or_eq_false_iff, decide_eq_false_iff_not]
        omega
      · intro h
        have h2 := congrArg Char.toNat h
        rw [ht, show Char.toNat ']' = 93 from rfl] at h2
        omega
    | negSucc m => exact ⟨'-', _, rfl, by decide, by decide⟩
  | str s => exact ⟨'"', _, rfl, by decide, by decide⟩
  | arr es => exact ⟨'[', _, rfl, by decide, by decide⟩
  | obj fs => exact ⟨'\x7b', _, rfl, by decide, by decide⟩

theorem intChars_head (n : Int) :
    ∃ c cs, intChars n = c :: cs ∧ (c.toNat = 45 ∨ (48 ≤ c.toNat ∧ c.toNat ≤ 57)) := by
  cases n with
  | ofNat m =>
    obtain ⟨d, cs, hchars, hd⟩ := natChars_head m
    refine ⟨Char.ofNat (48 + d), cs, hchars, Or.inr ?_⟩
    rw [toNat_ofNat_small _ (by omega)]
    omega
  | negSucc m => exact ⟨'-', _, rfl, Or.inl rfl⟩

/-- Dispatch of `parseVal`'s token match to the number default. -/
theorem parseVal_num (fuel : Nat) (c : Char) (cs : List Char)
    (hws : isJsonWs c = false)
    (hn : c ≠ 'n') (ht : c ≠ 't') (hf : c ≠ 'f') (hq : c ≠ '"')
    (hl : c ≠ '[') (hb : c ≠ '\x7b') :
    parseVal (fuel + 1) (c :: cs) = parseNum (c :: cs) := by
  rw [parseVal, skipWs_cons c cs hws]
  split <;> simp_all

/-! Fuel needed by the parser to accept a rendered value. -/
mutual
def jNeed : JVal → Nat
  | .arr [] => 1
  | .arr es => 1 + jNeedElems es
  | .obj [] => 1
  | .obj fs => 1 + jNeedFields fs
  | _ => 1
def jNeedElems : List JVal → Nat
  | [] => 1
  | v :: es => 1 + Nat.max (jNeed v) (jNeedAfterE es)
def jNeedAfterE : List JVal → Nat
  | [] => 1
  | e :: es => 2 + Nat.max (jNeed e) (jNeedAfterE es)
def jNeedFields : List (String × JVal) → Nat
  | [] => 1
  | (_, v) :: fs => 2 + Nat.max (jNeed v) (jNeedAfterF fs)
def jNeedAfterF : List (String × JVal) → Nat
  | [] => 1
  | (_, v) :: fs => 3 + Nat.max (jNeed v) (jNeedAfterF fs)
end

theorem jNeedAfterE_cons (e : JVal) (es : List JVal) :
    jNeedAfterE (e :: es) = 1 + jNeedElems (e :: es) := by
  simp [jNeedAfterE, jNeedElems]
  omega

theorem jNeedAfterF_cons (kv : String × JVal) (fs : List (String × JVal)) :
    jNeedAfterF (kv :: fs) = 1 + jNeedFields (kv :: fs) := by
  obtain ⟨k, v⟩ := kv
  simp [jNeedAfterF, jNeedFields]
  omega

theorem jNeed_pos (v : JVal) : 1 ≤ jNeed v := by
  cases v with
  | arr es => cases es <;> simp [jNeed]
  | obj fs => cases fs <;> simp [jNeed]
  | _ => simp [jNeed]

theorem jNeedElems_pos (es : List JVal) : 1 ≤ jNeedElems es := by
  cases es <;> simp [jNeedElems]

theorem jNeedAfterE_pos (es : List JVal) : 1 ≤ jNeedAfterE es := by
  cases es <;> simp [jNeedAfterE]
  omega

theorem jNeedFields_pos (fs : List (String × JVal)) : 1 ≤ jNeedFields fs := by
  cases fs with
  | nil => simp [jNeedFields]
  | cons kv fs' =>
    obtain ⟨k, v⟩ := kv
    simp [jNeedFields]
    omega

theorem jNeedAfterF_pos (fs : List (String × JVal)) : 1 ≤ jNeedAfterF fs := by
  cases fs with
  | nil => simp [jNeedAfterF]
  | cons kv fs' =>
    obtain ⟨k, v⟩ := kv
    simp [jNeedAfterF]
    omega

/-- Separator-and-tail of a rendered array after its first element. -/
def arrTail : List JVal → List Char
  | [] => []
  | es => ',' :: jCharsArr es

/-- Separator-and-tail of a rendered object after its first member. -/
def fldTail : List (String × JVal) → List Char
  | [] => []
  | fs => ',' :: jCharsObj fs

theorem jCharsArr_eq (e : JVal) (es : List JVal) :
    jCharsArr (e :: es) = jChars e ++ arrTail es := by
  cases es with
  | nil => simp [jCharsArr, arrTail]
  | cons e' es' => rfl

theorem jCharsObj_eq (k : String) (v : JVal) (fs : List (String × JVal)) :
    jCharsObj ((k, v) :: fs) = strLitChars k ++ ':' :: (jChars v ++ fldTail fs) := by
  cases fs with
  | nil => simp [jCharsObj, fldTail]
  | cons kv2 fs' => simp [jCharsObj, fldTail]

theorem parseVal_quote (fuel : Nat) (rest : List Char) :
    parseVal (fuel + 1) ('"' :: rest)
      = (parseStrBody (rest.length + 1) rest).map fun r => (.str (String.mk r.1), r.2) := rfl

theorem parseVal_lbracket (fuel : Nat) (rest : List Char) :
    parseVal (fuel + 1) ('[' :: rest)
      = if (skipWs rest).head? = some ']' then some (.arr [], (skipWs rest).tail)
        else (parseElems fuel (skipWs rest)).map fun r => (.arr r.1, r.2) := rfl

theorem parseVal_lbrace (fuel : Nat) (rest : List Char) :
    parseVal (fuel + 1) ('\x7b' :: rest)
      = if (skipWs rest).head? = some '\x7d' then some (.obj [], (skipWs rest).tail)
        else (parseFields fuel (skipWs rest)).map fun r => (.obj r.1, r.2) := rfl

theorem parseElems_succ (fuel : Nat) (cs : List Char) :
    parseElems (fuel + 1) cs
      = match parseVal fuel cs with
        | none => none
        | some (v, r1) => afterElem fuel v r1 := rfl

theorem parseFields_quote (fuel : Nat) (rest : List Char) :
    parseFields (fuel + 1) ('"' :: rest)
      = match parseStrBody (rest.length + 1) rest with
        | none => none
        | some (kcs, r1) =>
          match skipWs r1 with
          | ':' :: r2 => fieldValue fuel (String.mk kcs) r2
          | _ => none := rfl

theorem numBoundary_arrTail (es : List JVal) (rest : List Char) :
    numBoundary (arrTail es ++ ']' :: rest) = true := by
  cases es <;> simp [arrTail, numBoundary, isDigitChar]

theorem numBoundary_fldTail (fs : List (String × JVal)) (rest : List Char) :
    numBoundary (fldTail fs ++ '\x7d' :: rest) = true := by
  cases fs <;> simp [fldTail, numBoundary, isDigitChar]

theorem afterElem_comma (fuel : Nat) (v : JVal) (r2 : List Char) :
    afterElem (fuel + 1) v (',' :: r2)
      = (parseElems fuel r2).map fun r => (v :: r.1, r.2) := rfl

theorem afterField_comma (fuel : Nat) (k : String) (v : JVal) (r4 : List Char) :
    afterField (fuel + 1) k v (',' :: r4)
      = (parseFields fuel r4).map fun r => ((k, v) :: r.1, r.2) := rfl

theorem fieldValue_succ (fuel : Nat) (k : String) (r2 : List Char) :
    fieldValue (fuel + 1) k r2
      = match parseVal fuel r2 with
        | none => none
        | some (v, r3) => afterField fuel k v r3 := rfl

theorem parse_round (fuel : Nat) :
    (∀ v rest, jNeed v ≤ fuel → numBoundary rest = true →
       parseVal fuel (jChars v ++ rest) = some (v, rest)) ∧
    (∀ es rest, es ≠ [] → jNeedElems es ≤ fuel →
       parseElems fuel (jCharsArr es ++ ']' :: rest) = some (es, rest)) ∧
    (∀ v es rest, jNeedAfterE es ≤ fuel →
       afterElem fuel v (arrTail es ++ ']' :: rest) = some (v :: es, rest)) ∧
    (∀ fs rest, fs ≠ [] → jNeedFields fs ≤ fuel →
       parseFields fuel (jCharsObj fs ++ '\x7d' :: rest) = some (fs, rest)) ∧
    (∀ k v fs rest, 1 + Nat.max (jNeed v) (jNeedAfterF fs) ≤ fuel →
       fieldValue fuel k (jChars v ++ (fldTail fs ++ '\x7d' :: rest))
         = some ((k, v) :: fs, rest)) ∧
    (∀ k v fs rest, jNeedAfterF fs ≤ fuel →
       afterField fuel k v (fldTail fs ++ '\x7d' :: rest) = some ((k, v) :: fs, rest)) := by
  induction fuel with
  | zero =>
    refine ⟨?_, ?_, ?_, ?_, ?_, ?_⟩
    · intro v rest hn _
      exact absurd (le_trans (jNeed_pos v) hn) (by omega)
    · intro es rest _ hn
      exact absurd (le_trans (jNeedElems_pos es) hn) (by omega)
    · intro v es rest hn
      exact absurd (le_trans (jNeedAfterE_pos es) hn) (by omega)
    · intro fs rest _ hn
      exact absurd (le_trans (jNeedFields_pos fs) hn) (by omega)
    · intro k v fs rest hn
      exact absurd (le_trans (by omega : 1 ≤ 1 + Nat.max (jNeed v) (jNeedAfterF fs)) hn)
        (by omega)
    · intro k v fs rest hn
      exact absurd (le_trans (jNeedAfterF_pos fs) hn) (by omega)
  | succ fuel ih =>
    obtain ⟨ihv, ihe, ihae, ihf, ihfv, ihaf⟩ := ih
    refine ⟨?_, ?_, ?_, ?_, ?_, ?_⟩
    · intro v rest hn hb
      cases v with
      | null =>
        rw [show jChars JVal.null ++ rest = 'n' :: 'u' :: 'l' :: 'l' :: rest from rfl]
        rfl
      | bool b =>
        cases b with
        | true =>
          rw [show jChars (JVal.bool true) ++ rest = 't' :: 'r' :: 'u' :: 'e' :: rest from rfl]
          rfl
        | false =>
          rw [show jChars (JVal.bool false) ++ rest
              = 'f' :: 'a' :: 'l' :: 's' :: 'e' :: rest from rfl]
          rfl
      | num n =>
        obtain ⟨c, cs, hc, hface⟩ := intChars_head n
        have hws : isJsonWs c = false := by
          simp only [isJsonWs, Bool.or_eq_false_iff, decide_eq_false_iff_not]
          omega
        have hchar : ∀ x : Char, x.toNat ≠ 45 → ¬(48 ≤ x.toNat ∧ x.toNat ≤ 57) →
            c ≠ x := by
          intro x h1 h2 heq
          rw [heq] at hface
          omega
        rw [show jChars (JVal.num n) = intChars n from rfl, hc, List.cons_append]
        rw [parseVal_num fuel c (cs ++ rest) hws
          (hchar 'n' (by decide) (by decide)) (hchar 't' (by decide) (by decide))
          (hchar 'f' (by decide) (by decide)) (hchar '"' (by decide) (by decide))
          (hchar '[' (by decide) (by decide)) (hchar '\x7b' (by decide) (by decide))]
        rw [← List.cons_append, ← hc]
        exact parseNum_intChars n rest hb
      | str s =>
        rw [show jChars (JVal.str s) ++ rest
            = '"' :: (escapeChars s.data ++ '"' :: rest) by
          simp [jChars, strLitChars]]
        rw [parseVal_quote]
        rw [parseStrBody_escapes s.data _ rest
          (by simp only [List.length_append, List.length_cons]; omega)]
        rfl
      | arr es =>
        cases es with
        | nil =>
          rw [show jChars (JVal.arr []) ++ rest = '[' :: ']' :: rest from rfl]
          rfl
        | cons e es' =>
          obtain ⟨c, cs, hc, hws, hnr⟩ := jChars_cons e
          have hn' : jNeedElems (e :: es') ≤ fuel := by
            have h1 : jNeed (JVal.arr (e :: es')) = 1 + jNeedElems (e :: es') := by
              simp [jNeed]
            omega
          have hlist : jChars (JVal.arr (e :: es')) ++ rest
              = '[' :: (jCharsArr (e :: es') ++ ']' :: rest) := by
            simp [jChars]
          have hform : jCharsArr (e :: es') ++ ']' :: rest
              = c :: (cs ++ (arrTail es' ++ ']' :: rest)) := by
            rw [jCharsArr_eq, hc]; simp
          have hskip : skipWs (jCharsArr (e :: es') ++ ']' :: rest)
              = jCharsArr (e :: es') ++ ']' :: rest := by
            rw [hform]; exact skipWs_cons _ _ hws
          have hhd : ¬((jCharsArr (e :: es') ++ ']' :: rest).head? = some ']') := by
            rw [hform]
            intro h
            rw [List.head?_cons, Option.some.injEq] at h
            exact hnr h
          rw [hlist, parseVal_lbracket, hskip, if_neg hhd,
            ihe (e :: es') rest (by simp) hn']
          rfl
      | obj fs =>
        cases fs with
        | nil =>
          rw [show jChars (JVal.obj []) ++ rest = '\x7b' :: '\x7d' :: rest from rfl]
          rfl
        | cons kv fs' =>
          have hn' : jNeedFields (kv :: fs') ≤ fuel := by
            have h1 : jNeed (JVal.obj (kv :: fs')) = 1 + jNeedFields (kv :: fs') := by
              simp [jNeed]
            omega
          have hlist : jChars (JVal.obj (kv :: fs')) ++ rest
              = '\x7b' :: (jCharsObj (kv :: fs') ++ '\x7d' :: rest) := by
            simp [jChars]
          obtain ⟨k, v⟩ := kv
          have htail : jCharsObj ((k, v) :: fs') ++ '\x7d' :: rest
              = '"' :: (escapeChars k.data ++ '"' ::
                  (':' :: (jChars v ++ (fldTail fs' ++ '\x7d' :: rest)))) := by
            rw [jCharsObj_eq]
            simp [strLitChars]
          have hskip : skipWs (jCharsObj ((k, v) :: fs') ++ '\x7d' :: rest)
              = jCharsObj ((k, v) :: fs') ++ '\x7d' :: rest := by
            rw [htail]; exact skipWs_cons _ _ (by decide)
          have hhd : ¬((jCharsObj ((k, v) :: fs') ++ '\x7d' :: rest).head?
              = some '\x7d') := by
            rw [htail]
            intro h
            rw [List.head?_cons, Option.some.injEq] at h
            revert h
            decide
          rw [hlist, parseVal_lbrace, hskip, if_neg hhd,
            ihf ((k, v) :: fs') rest (by simp) hn']
          rfl
    · intro es rest hne hn
      cases es with
      | nil => exact absurd rfl hne
      | cons e es' =>
        have hm : Nat.max (jNeed e) (jNeedAfterE es') ≤ fuel := by
          simp only [jNeedElems] at hn
          omega
        have hn1 : jNeed e ≤ fuel := le_trans (Nat.le_max_left _ _) hm
        have hn2 : jNeedAfterE es' ≤ fuel := le_trans (Nat.le_max_right _ _) hm
        rw [jCharsArr_eq, List.append_assoc, parseElems_succ,
          ihv e (arrTail es' ++ ']' :: rest) hn1 (numBoundary_arrTail es' rest)]
        exact ihae e es' rest hn2
    · intro v es rest hn
      cases es with
      | nil =>
        rw [show arrTail ([] : List JVal) ++ ']' :: rest = ']' :: rest from rfl]
        rfl
      | cons e2 es'' =>
        have hn2 : jNeedElems (e2 :: es'') ≤ fuel := by
          rw [jNeedAfterE_cons] at hn
          omega
        rw [show arrTail (e2 :: es'') ++ ']' :: rest
            = ',' :: (jCharsArr (e2 :: es'') ++ ']' :: rest) from rfl]
        rw [afterElem_comma, ihe (e2 :: es'') rest (by simp) hn2]
        rfl
    · intro fs rest hne hn
      cases fs with
      | nil => exact absurd rfl hne
      | cons kv fs' =>
        obtain ⟨k, v⟩ := kv
        have hn' : 1 + Nat.max (jNeed v) (jNeedAfterF fs') ≤ fuel := by
          simp only [jNeedFields] at hn
          omega
        have hck : jCharsObj ((k, v) :: fs') ++ '\x7d' :: rest
            = '"' :: (escapeChars k.data ++ '"' ::
                (':' :: (jChars v ++ (fldTail fs' ++ '\x7d' :: rest)))) := by
          rw [jCharsObj_eq]
          simp [strLitChars]
        rw [hck, parseFields_quote]
        rw [parseStrBody_escapes k.data _ _
          (by simp only [List.length_append, List.length_cons]; omega)]
        exact ihfv (String.mk k.data) v fs' rest hn'
    · intro k v fs rest hn
      have hm : Nat.max (jNeed v) (jNeedAfterF fs) ≤ fuel := by omega
      have hn1 : jNeed v ≤ fuel := le_trans (Nat.le_max_left _ _) hm
      have hn2 : jNeedAfterF fs ≤ fuel := le_trans (Nat.le_max_right _ _) hm
      rw [fieldValue_succ,
        ihv v (fldTail fs ++ '\x7d' :: rest) hn1 (numBoundary_fldTail fs rest)]
      exact ihaf k v fs rest hn2
    · intro k v fs rest hn
      cases fs with
      | nil =>
        rw [show fldTail ([] : List (String × JVal)) ++ '\x7d' :: rest
            = '\x7d' :: rest from rfl]
        rfl
      | cons kv2 fs'' =>
        have hn2 : jNeedFields (kv2 :: fs'') ≤ fuel := by
          rw [jNeedAfterF_cons] at hn
          omega
        rw [show fldTail (kv2 :: fs'') ++ '\x7d' :: rest
            = ',' :: (jCharsObj (kv2 :: fs'') ++ '\x7d' :: rest) from rfl]
        rw [afterField_comma, ihf (kv2 :: fs'') rest (by simp) hn2]
        rfl

theorem strLitChars_len (k : String) : 2 ≤ (strLitChars k).length := by
  simp [strLitChars]

theorem jChars_len_pos (v : JVal) : 1 ≤ (jChars v).length := by
  obtain ⟨c, cs, hc, _, _⟩ := jChars_cons v
  rw [hc]
  simp

mutual
theorem jNeed_le : ∀ v : JVal, jNeed v ≤ (jChars v).length
  | .null => by simp [jNeed, jChars]
  | .bool b => by cases b <;> simp [jNeed, jChars]
  | .num n => by
      have h := jChars_len_pos (.num n)
      simpa [jNeed] using h
  | .str s => by
      have h : 2 ≤ (strLitChars s).length := strLitChars_len s
      have h2 : jChars (JVal.str s) = strLitChars s := rfl
      simp [jNeed, h2]
      omega
  | .arr [] => by simp [jNeed, jChars, jCharsArr]
  | .arr (e :: es) => by
      have h1 := jNeedElems_le (e :: es)
      have h2 : jNeed (JVal.arr (e :: es)) = 1 + jNeedElems (e :: es) := by
        simp [jNeed]
      have h3 : (jChars (JVal.arr (e :: es))).length
          = (jCharsArr (e :: es)).length + 2 := by
        simp [jChars]
      omega
  | .obj [] => by simp [jNeed, jChars, jCharsObj]
  | .obj (f :: fs) => by
      have h1 := jNeedFields_le (f :: fs)
      have h2 : jNeed (JVal.obj (f :: fs)) = 1 + jNeedFields (f :: fs) := by
        simp [jNeed]
      have h3 : (jChars (JVal.obj (f :: fs))).length
          = (jCharsObj (f :: fs)).length + 2 := by
        simp [jChars]
      omega
theorem jNeedElems_le : ∀ es : List JVal, jNeedElems es ≤ (jCharsArr es).length + 1
  | [] => by simp [jNeedElems, jCharsArr]
  | v :: es => by
      have h1 := jNeed_le v
      have h2 := jNeedAfterE_le es
      have hp := jChars_len_pos v
      have hlen : (jCharsArr (v :: es)).length
          = (jChars v).length + (arrTail es).length := by
        rw [jCharsArr_eq]; simp
      have hmax : Nat.max (jNeed v) (jNeedAfterE es)
          ≤ (jChars v).length + (arrTail es).length :=
        Nat.max_le.mpr ⟨by omega, by omega⟩
      have h4 : jNeedElems (v :: es)
          = 1 + Nat.max (jNeed v) (jNeedAfterE es) := by
        simp [jNeedElems]
      omega
theorem jNeedAfterE_le : ∀ es : List JVal, jNeedAfterE es ≤ (arrTail es).length + 1
  | [] => by simp [jNeedAfterE, arrTail]
  | e :: es => by
      have h1 := jNeed_le e
      have h2 := jNeedAfterE_le es
      have hp := jChars_len_pos e
      have hlen : (arrTail (e :: es)).length
          = (jChars e).length + (arrTail es).length + 1 := by
        rw [show arrTail (e :: es) = ',' :: jCharsArr (e :: es) from rfl]
        rw [List.length_cons, jCharsArr_eq]
        simp
      have hmax : Nat.max (jNeed e) (jNeedAfterE es)
          ≤ (jChars e).length + (arrTail es).length :=
        Nat.max_le.mpr ⟨by omega, by omega⟩
      have h4 : jNeedAfterE (e :: es)
          = 2 + Nat.max (jNeed e) (jNeedAfterE es) := by
        simp [jNeedAfterE]
      omega
theorem jNeedFields_le : ∀ fs : List (String × JVal),
    jNeedFields fs ≤ (jCharsObj fs).length + 1
  | [] => by simp [jNeedFields, jCharsObj]
  | (k, v) :: fs => by
      have h1 := jNeed_le v
      have h2 := jNeedAfterF_le fs
      have hp := jChars_len_pos v
      have hs := strLitChars_len k
      have hlen : (jCharsObj ((k, v) :: fs)).length
          = (strLitChars k).length + 1 + (jChars v).length + (fldTail fs).length := by
        rw [jCharsObj_eq]
        simp
        all_goals omega
      have hmax : Nat.max (jNeed v) (jNeedAfterF fs)
          ≤ (jChars v).length + (fldTail fs).length + 1 :=
        Nat.max_le.mpr ⟨by omega, by omega⟩
      have h4 : jNeedFields ((k, v) :: fs)
          = 2 + Nat.max (jNeed v) (jNeedAfterF fs) := by
        simp [jNeedFields]
      omega
theorem jNeedAfterF_le : ∀ fs : List (String × JVal),
    jNeedAfterF fs ≤ (fldTail fs).length + 1
  | [] => by simp [jNeedAfterF, fldTail]
  | (k, v) :: fs => by
      have h1 := jNeed_le v
      have h2 := jNeedAfterF_le fs
      have hp := jChars_len_pos v
      have hs := strLitChars_len k
      have hlen : (fldTail ((k, v) :: fs)).length
          = (strLitChars k).length + 1 + (jChars v).length + (fldTail fs).length + 1 := by
        rw [show fldTail ((k, v) :: fs) = ',' :: jCharsObj ((k, v) :: fs) from rfl]
        rw [List.length_cons, jCharsObj_eq]
        simp
        all_goals omega
      have hmax : Nat.max (jNeed v) (jNeedAfterF fs)
          ≤ (jChars v).length + (fldTail fs).length + 1 :=
        Nat.max_le.mpr ⟨by omega, by omega⟩
      have h4 : jNeedAfterF ((k, v) :: fs)
          = 3 + Nat.max (jNeed v) (jNeedAfterF fs) := by
        simp [jNeedAfterF]
      omega
end

/-- `JSON.parse ∘ JSON.stringify` is the identity on modelled JSON values. -/
theorem jsonParse_jsonStringify (v : JVal) :
    jsonParse (jsonStringify v) = some v := by
  have h := (parse_round ((jChars v).length + 1)).1 v []
    (le_trans (jNeed_le v) (by omega)) rfl
  rw [List.append_nil] at h
  unfold jsonParse jsonStringify
  rw [show (String.mk (jChars v)).length = (jChars v).length from rfl]
  rw [show (String.mk (jChars v)).data = jChars v from rfl]
  rw [h]
  rfl

/-! ## Field-selective encryption (`encryptObject` / `decryptObject`)

The generic document transforms of the engine, on dynamic JSON documents.
-/

/-- A field of a document passing through `encryptObject`/`decryptObject`:
either a plain JSON value or the envelope an encryption pass wrote there
(the `'encrypted_data' in result[field]` shape test recognises the latter). -/
inductive FVal where
  | plain (v : JVal)
  | envC (e : EncryptedValue)
deriving DecidableEq, Repr

/-- A document together with its `_encrypted_fields` bookkeeping property
(`none` models an absent property). -/
structure EDoc where
  fields : List (String × FVal)
  encFields : Option (List String)
deriving DecidableEq, Repr

/-- `typeof obj[field] === 'string' ? obj[field] : JSON.stringify(obj[field])`. -/
def fieldPlaintext : JVal → String
  | .str s => s
  | v => jsonStringify v

/-- The loop of `encryptObject`: walk `fieldsToEncrypt`, reading the original
document and writing envelopes into the result; returns the result fields and
the pushed `_encrypted_fields` names.  `i` numbers the iteration, so `ivf i`
is the fresh random IV of that iteration's `encrypt` call. -/
def encryptFieldsAux (svc : EncryptionService) (ivf : Nat → Nat) (now : Nat)
    (doc : List (String × JVal)) (expiresAt : Option Nat) :
    Nat → List String → List (String × FVal) → List (String × FVal) × List String
  | _, [], result => (result, [])
  | i, f :: fsrest, result =>
    match assocGet doc f with
    | some v =>
      if v = JVal.null then encryptFieldsAux svc ivf now doc expiresAt (i + 1) fsrest result
      else
        let result' := assocSet result f
          (.envC (svc.encrypt (ivf i) now (fieldPlaintext v) expiresAt))
        let r := encryptFieldsAux svc ivf now doc expiresAt (i + 1) fsrest result'
        (r.1, f :: r.2)
    | none => encryptFieldsAux svc ivf now doc expiresAt (i + 1) fsrest result

/-- `encryptObject(obj, fieldsToEncrypt, expiresAt?)`. -/
def encryptObjectG (svc : EncryptionService) (ivf : Nat → Nat) (now : Nat)
    (doc : List (String × JVal)) (fieldsToEncrypt : List String)
    (expiresAt : Option Nat) : EDoc :=
  let r := encryptFieldsAux svc ivf now doc expiresAt 0 fieldsToEncrypt
    (doc.map fun p => (p.1, FVal.plain p.2))
  { fields := r.1, encFields := some r.2 }

/-- `JSON.parse(decrypted)` with the string fallback of `decryptObject`. -/
def parseOrString (s : String) : JVal :=
  match jsonParse s with
  | some v => v
  | none => .str s

/-- The loop of `decryptObject`: walk the recorded field names; an
envelope-shaped field is decrypted (and JSON re-parsed) in place, a failed
decrypt leaves the envelope, anything else is skipped. -/
def decryptFieldsAux (svc : EncryptionService) (now : Nat) :
    List String → List (String × FVal) → List (String × FVal)
  | [], result => result
  | f :: fs, result =>
    let result' :=
      match assocGet result f with
      | some (.envC e) =>
        match svc.decrypt now e with
        | .ok s => assocSet result f (.plain (parseOrString s))
        | .error _ => result
      | _ => result
    decryptFieldsAux svc now fs result'

/-- `decryptObject(obj)`: process `obj._encrypted_fields || []`, then strip
the bookkeeping property. -/
def decryptObjectG (svc : EncryptionService) (now : Nat) (ed : EDoc) :
    List (String × FVal) :=
  decryptFieldsAux svc now (ed.encFields.getD []) ed.fields

/-! ### Association-list support lemmas for the field transforms -/

theorem assocGet_map {α β : Type} (l : List (String × α)) (g : α → β) (k : String) :
    assocGet (l.map fun p => (p.1, g p.2)) k = (assocGet l k).map g := by
  induction l with
  | nil => rfl
  | cons hd t ih =>
    obtain ⟨k₀, v₀⟩ := hd
    by_cases h : k₀ = k <;> simp [assocGet, h, ih]

theorem assocGet_some_mem {α : Type} (l : List (String × α)) (k : String) (v : α)
    (h : assocGet l k = some v) : k ∈ l.map Prod.fst := by
  induction l with
  | nil => simp [assocGet] at h
  | cons hd t ih =>
    obtain ⟨k₀, v₀⟩ := hd
    by_cases h0 : k₀ = k
    · subst h0; simp
    · simp [assocGet, h0] at h
      simp [ih h]

theorem assocGet_eq_none {α : Type} (l : List (String × α)) (k : String)
    (h : k ∉ l.map Prod.fst) : assocGet l k = none := by
  induction l with
  | nil => rfl
  | cons hd t ih =>
    obtain ⟨k₀, v₀⟩ := hd
    rw [List.map_cons, List.mem_cons] at h
    push_neg at h
    show (if k₀ = k then some v₀ else assocGet t k) = none
    rw [if_neg (fun hh => h.1 hh.symm)]
    exact ih h.2

theorem assocSet_keys {α : Type} (l : List (String × α)) (k : String) (v : α)
    (h : k ∈ l.map Prod.fst) :
    (assocSet l k v).map Prod.fst = l.map Prod.fst := by
  induction l with
  | nil => simp at h
  | cons hd t ih =>
    obtain ⟨k₀, v₀⟩ := hd
    by_cases h0 : k₀ = k
    · subst h0; simp [assocSet]
    · rw [List.map_cons, List.mem_cons] at h
      rcases h with h | h
      · exact absurd h.symm h0
      · rw [show assocSet ((k₀, v₀) :: t) k v = (k₀, v₀) :: assocSet t k v from by
          simp [assocSet, h0]]
        rw [List.map_cons, List.map_cons, ih h]

theorem assoc_ext {α : Type} :
    ∀ (l₁ l₂ : List (String × α)),
      l₁.map Prod.fst = l₂.map Prod.fst →
      (l₁.map Prod.fst).Nodup →
      (∀ k, assocGet l₁ k = assocGet l₂ k) → l₁ = l₂ := by
  intro l₁
  induction l₁ with
  | nil =>
    intro l₂ hk _ _
    cases l₂ with
    | nil => rfl
    | cons hd t => simp at hk
  | cons hd t ih =>
    intro l₂ hk hnd hget
    obtain ⟨k₀, v₀⟩ := hd
    cases l₂ with
    | nil => simp at hk
    | cons hd₂ t₂ =>
      obtain ⟨k₂, v₂⟩ := hd₂
      simp only [List.map_cons, List.cons.injEq] at hk
      obtain ⟨hkeq, hkt⟩ := hk
      subst hkeq
      have hv : v₀ = v₂ := by
        have h1 := hget k₀
        rw [show assocGet ((k₀, v₀) :: t) k₀ = some v₀ from by
            show (if k₀ = k₀ then some v₀ else assocGet t k₀) = some v₀
            rw [if_pos rfl],
          show assocGet ((k₀, v₂) :: t₂) k₀ = some v₂ from by
            show (if k₀ = k₀ then some v₂ else assocGet t₂ k₀) = some v₂
            rw [if_pos rfl]] at h1
        exact Option.some.injEq .. ▸ h1
      subst hv
      rw [List.map_cons, List.nodup_cons] at hnd
      have ht : t = t₂ := by
        refine ih t₂ hkt hnd.2 ?_
        intro k
        by_cases h0 : k = k₀
        · subst h0
          rw [assocGet_eq_none t k hnd.1, assocGet_eq_none t₂ k (hkt ▸ hnd.1)]
        · have h2 := hget k
          rw [show assocGet ((k₀, v₀) :: t) k = assocGet t k from by
              show (if k₀ = k then some v₀ else assocGet t k) = assocGet t k
              rw [if_neg (fun hh => h0 hh.symm)],
            show assocGet ((k₀, v₀) :: t₂) k = assocGet t₂ k from by
              show (if k₀ = k then some v₀ else assocGet t₂ k) = assocGet t₂ k
              rw [if_neg (fun hh => h0 hh.symm)]] at h2
          exact h2
      rw [ht]

/-! ### Correctness of the field transforms -/

/-- Field `f` of the working document still carries the original value. -/
def plainCorrect (doc : List (String × JVal)) (r : List (String × FVal))
    (f : String) : Prop :=
  assocGet r f = (assocGet doc f).map FVal.plain

/-- Field `f` of the working document carries an envelope of the original
value's plaintext rendering, under some iteration's IV. -/
def envCCorrect (svc : EncryptionService) (ivf : Nat → Nat) (now : Nat)
    (doc : List (String × JVal)) (exp : Option Nat)
    (r : List (String × FVal)) (f : String) : Prop :=
  ∃ v j, assocGet doc f = some v ∧ v ≠ JVal.null ∧
    assocGet r f = some (.envC (svc.encrypt (ivf j) now (fieldPlaintext v) exp))

theorem encryptFieldsAux_spec (svc : EncryptionService) (ivf : Nat → Nat)
    (now : Nat) (doc : List (String × JVal)) (exp : Option Nat) :
    ∀ (fs : List String) (i : Nat) (result : List (String × FVal)),
      result.map Prod.fst = doc.map Prod.fst →
      (∀ f, plainCorrect doc result f ∨ envCCorrect svc ivf now doc exp result f) →
      (encryptFieldsAux svc ivf now doc exp i fs result).1.map Prod.fst
          = doc.map Prod.fst ∧
      (∀ f, f ∈ (encryptFieldsAux svc ivf now doc exp i fs result).2 →
        f ∈ fs ∧ envCCorrect svc ivf now doc exp
          (encryptFieldsAux svc ivf now doc exp i fs result).1 f) ∧
      (∀ f, f ∉ (encryptFieldsAux svc ivf now doc exp i fs result).2 →
        assocGet (encryptFieldsAux svc ivf now doc exp i fs result).1 f
          = assocGet result f) := by
  intro fs
  induction fs with
  | nil =>
    intro i result hkeys _
    refine ⟨hkeys, ?_, ?_⟩
    · intro f hf
      simp [encryptFieldsAux] at hf
    · intro f _
      rfl
  | cons f fsrest ih =>
    intro i result hkeys hres
    cases hdoc : assocGet doc f with
    | none =>
      have heq : encryptFieldsAux svc ivf now doc exp i (f :: fsrest) result
          = encryptFieldsAux svc ivf now doc exp (i + 1) fsrest result := by
        simp [encryptFieldsAux, hdoc]
      rw [heq]
      obtain ⟨h1, h2, h3⟩ := ih (i + 1) result hkeys hres
      exact ⟨h1, fun g hg => ⟨List.mem_cons_of_mem f (h2 g hg).1, (h2 g hg).2⟩, h3⟩
    | some v =>
      by_cases hnull : v = JVal.null
      · have heq : encryptFieldsAux svc ivf now doc exp i (f :: fsrest) result
            = encryptFieldsAux svc ivf now doc exp (i + 1) fsrest result := by
          simp [encryptFieldsAux, hdoc, hnull]
        rw [heq]
        obtain ⟨h1, h2, h3⟩ := ih (i + 1) result hkeys hres
        exact ⟨h1, fun g hg => ⟨List.mem_cons_of_mem f (h2 g hg).1, (h2 g hg).2⟩, h3⟩
      · have hmem : f ∈ result.map Prod.fst := by
          rw [hkeys]
          exact assocGet_some_mem doc f v hdoc
        have heq : encryptFieldsAux svc ivf now doc exp i (f :: fsrest) result
            = ((encryptFieldsAux svc ivf now doc exp (i + 1) fsrest
                  (assocSet result f
                    (.envC (svc.encrypt (ivf i) now (fieldPlaintext v) exp)))).1,
               f :: (encryptFieldsAux svc ivf now doc exp (i + 1) fsrest
                  (assocSet result f
                    (.envC (svc.encrypt (ivf i) now (fieldPlaintext v) exp)))).2) := by
          simp [encryptFieldsAux, hdoc, hnull]
        have hkeys' : (assocSet result f
              (.envC (svc.encrypt (ivf i) now (fieldPlaintext v) exp))).map Prod.fst
            = doc.map Prod.fst := by
          rw [assocSet_keys result f _ hmem, hkeys]
        have hres' : ∀ g, plainCorrect doc (assocSet result f
              (.envC (svc.encrypt (ivf i) now (fieldPlaintext v) exp))) g ∨
            envCCorrect svc ivf now doc exp (assocSet result f
              (.envC (svc.encrypt (ivf i) now (fieldPlaintext v) exp))) g := by
          intro g
          by_cases hg : f = g
          · subst hg
            right
            exact ⟨v, i, hdoc, hnull, by rw [assocGet_assocSet, if_pos rfl]⟩
          · have hu : assocGet (assocSet result f
                (.envC (svc.encrypt (ivf i) now (fieldPlaintext v) exp))) g
                = assocGet result g := by
              rw [assocGet_assocSet, if_neg hg]
            rcases hres g with h | h
            · left
              rw [plainCorrect, hu]
              exact h
            · right
              obtain ⟨v', j, ha, hb, hc⟩ := h
              exact ⟨v', j, ha, hb, by rw [hu]; exact hc⟩
        obtain ⟨h1, h2, h3⟩ := ih (i + 1) (assocSet result f
          (.envC (svc.encrypt (ivf i) now (fieldPlaintext v) exp))) hkeys' hres'
        rw [heq]
        refine ⟨h1, ?_, ?_⟩
        · intro g hg
          simp only [List.mem_cons] at hg
          rcases hg with hg | hg
          · subst hg
            refine ⟨List.mem_cons_self g fsrest, ?_⟩
            by_cases hin : g ∈ (encryptFieldsAux svc ivf now doc exp (i + 1) fsrest
                (assocSet result g
                  (.envC (svc.encrypt (ivf i) now (fieldPlaintext v) exp)))).2
            · exact (h2 g hin).2
            · refine ⟨v, i, hdoc, hnull, ?_⟩
              rw [h3 g hin, assocGet_assocSet, if_pos rfl]
          · exact ⟨List.mem_cons_of_mem f (h2 g hg).1, (h2 g hg).2⟩
        · intro g hg
          simp only [List.mem_cons] at hg
          push_neg at hg
          rw [h3 g hg.2, assocGet_assocSet, if_neg (fun hh => hg.1 hh.symm)]

/-- The decrypted value restores the original field value. -/
def restorable (v : JVal) : Prop :=
  parseOrString (fieldPlaintext v) = v

theorem restorable_of (v : JVal)
    (h : ∀ s, v = JVal.str s → jsonParse s = none) : restorable v := by
  cases v with
  | str s => simp [restorable, fieldPlaintext, parseOrString, h s rfl]
  | null => simp [restorable, fieldPlaintext, parseOrString, jsonParse_jsonStringify]
  | bool b => simp [restorable, fieldPlaintext, parseOrString, jsonParse_jsonStringify]
  | num n => simp [restorable, fieldPlaintext, parseOrString, jsonParse_jsonStringify]
  | arr es => simp [restorable, fieldPlaintext, parseOrString, jsonParse_jsonStringify]
  | obj fs => simp [restorable, fieldPlaintext, parseOrString, jsonParse_jsonStringify]

/-- Field `f` carries an envelope whose decryption restores the original. -/
def envCGood (svc : EncryptionService) (now' : Nat) (doc : List (String × JVal))
    (r : List (String × FVal)) (f : String) : Prop :=
  ∃ v e, assocGet doc f = some v ∧ restorable v ∧
    assocGet r f = some (.envC e) ∧ svc.decrypt now' e = .ok (fieldPlaintext v)

theorem decryptFieldsAux_spec (svc : EncryptionService) (now' : Nat)
    (doc : List (String × JVal)) :
    ∀ (names : List String) (result : List (String × FVal)),
      result.map Prod.fst = doc.map Prod.fst →
      (∀ f ∈ names, plainCorrect doc result f ∨ envCGood svc now' doc result f) →
      (decryptFieldsAux svc now' names result).map Prod.fst = doc.map Prod.fst ∧
      (∀ f ∈ names, plainCorrect doc (decryptFieldsAux svc now' names result) f) ∧
      (∀ f, f ∉ names →
        assocGet (decryptFieldsAux svc now' names result) f = assocGet result f) := by
  intro names
  induction names with
  | nil =>
    intro result hkeys _
    exact ⟨hkeys, by simp, fun f _ => rfl⟩
  | cons f rest ih =>
    intro result hkeys hres
    rcases hres f (List.mem_cons_self f rest) with hp | hg
    · have heq : decryptFieldsAux svc now' (f :: rest) result
          = decryptFieldsAux svc now' rest result := by
        rw [decryptFieldsAux]
        rw [plainCorrect] at hp
        cases hd : assocGet doc f with
        | none => rw [hd] at hp; simp at hp; rw [hp]
        | some v => rw [hd] at hp; simp at hp; rw [hp]
      rw [heq]
      obtain ⟨h1, h2, h3⟩ := ih result hkeys
        (fun g hgm => hres g (List.mem_cons_of_mem f hgm))
      refine ⟨h1, ?_, ?_⟩
      · intro g hgm
        simp only [List.mem_cons] at hgm
        rcases hgm with hgm | hgm
        · subst hgm
          by_cases hin : g ∈ rest
          · exact h2 g hin
          · rw [plainCorrect, h3 g hin]
            exact hp
        · exact h2 g hgm
      · intro g hgm
        simp only [List.mem_cons] at hgm
        push_neg at hgm
        exact h3 g hgm.2
    · obtain ⟨v, e, hdoc, hrest, hget, hdec⟩ := hg
      have hmem : f ∈ result.map Prod.fst := by
        rw [hkeys]
        exact assocGet_some_mem doc f v hdoc
      have heq : decryptFieldsAux svc now' (f :: rest) result
          = decryptFieldsAux svc now' rest
              (assocSet result f (.plain v)) := by
        simp only [decryptFieldsAux, hget, hdec]
        rw [show parseOrString (fieldPlaintext v) = v from hrest]
      have hkeys' : (assocSet result f (.plain v)).map Prod.fst
          = doc.map Prod.fst := by
        rw [assocSet_keys result f _ (by rw [hkeys]; exact assocGet_some_mem doc f v hdoc)]
        exact hkeys
      have hres' : ∀ g ∈ rest, plainCorrect doc (assocSet result f (.plain v)) g ∨
          envCGood svc now' doc (assocSet result f (.plain v)) g := by
        intro g hgm
        by_cases hgf : f = g
        · subst hgf
          left
          rw [plainCorrect, assocGet_assocSet, if_pos rfl, hdoc]
          rfl
        · have hu : assocGet (assocSet result f (.plain v)) g = assocGet result g := by
            rw [assocGet_assocSet, if_neg hgf]
          rcases hres g (List.mem_cons_of_mem f hgm) with h | h
          · left
            rw [plainCorrect, hu]
            exact h
          · right
            obtain ⟨v', e', ha, hb, hc, hd⟩ := h
            exact ⟨v', e', ha, hb, by rw [hu]; exact hc, hd⟩
      rw [heq]
      obtain ⟨h1, h2, h3⟩ := ih (assocSet result f (.plain v)) hkeys' hres'
      refine ⟨h1, ?_, ?_⟩
      · intro g hgm
        simp only [List.mem_cons] at hgm
        rcases hgm with hgm | hgm
        · subst hgm
          by_cases hin : g ∈ rest
          · exact h2 g hin
          · rw [plainCorrect, h3 g hin, assocGet_assocSet, if_pos rfl, hdoc]
            rfl
        · exact h2 g hgm
      · intro g hgm
        simp only [List.mem_cons] at hgm
        push_neg at hgm
        rw [h3 g hgm.2, assocGet_assocSet, if_neg (fun hh => hgm.1 hh.symm)]

theorem encryptObject_decryptObject_roundtrip
    (svc : EncryptionService) (ivf : Nat → Nat) (now now' : Nat)
    (doc : List (String × JVal)) (F : List String) (exp : Option Nat)
    (hnodup : (doc.map Prod.fst).Nodup)
    (hstr : ∀ f s, f ∈ F → assocGet doc f = some (JVal.str s) → jsonParse s = none)
    (hexp : isExpiredAt exp now' = false) :
    decryptObjectG svc now' (encryptObjectG svc ivf now doc F exp)
      = doc.map (fun p => (p.1, FVal.plain p.2)) ∧
    ∀ f, f ∉ F →
      assocGet (encryptObjectG svc ivf now doc F exp).fields f
        = (assocGet doc f).map FVal.plain := by
  have hkeys0 : (doc.map fun p => (p.1, FVal.plain p.2)).map Prod.fst
      = doc.map Prod.fst := by
    simp
  have hres0 : ∀ f, plainCorrect doc (doc.map fun p => (p.1, FVal.plain p.2)) f ∨
      envCCorrect svc ivf now doc exp (doc.map fun p => (p.1, FVal.plain p.2)) f := by
    intro f
    left
    rw [plainCorrect, assocGet_map]
  obtain ⟨he1, he2, he3⟩ := encryptFieldsAux_spec svc ivf now doc exp F 0
    (doc.map fun p => (p.1, FVal.plain p.2)) hkeys0 hres0
  have hdres : ∀ f ∈ (encryptFieldsAux svc ivf now doc exp 0 F
        (doc.map fun p => (p.1, FVal.plain p.2))).2,
      plainCorrect doc (encryptFieldsAux svc ivf now doc exp 0 F
        (doc.map fun p => (p.1, FVal.plain p.2))).1 f ∨
      envCGood svc now' doc (encryptFieldsAux svc ivf now doc exp 0 F
        (doc.map fun p => (p.1, FVal.plain p.2))).1 f := by
    intro f hf
    obtain ⟨hfF, v, j, hdoc, hnull, hget⟩ := he2 f hf
    right
    refine ⟨v, _, hdoc, ?_, hget, ?_⟩
    · exact restorable_of v (fun s hs => hstr f s hfF (hs ▸ hdoc))
    · exact decrypt_encrypt svc (ivf j) now now' (fieldPlaintext v) exp hexp
  obtain ⟨hd1, hd2, hd3⟩ := decryptFieldsAux_spec svc now' doc
    (encryptFieldsAux svc ivf now doc exp 0 F
      (doc.map fun p => (p.1, FVal.plain p.2))).2
    (encryptFieldsAux svc ivf now doc exp 0 F
      (doc.map fun p => (p.1, FVal.plain p.2))).1 he1 hdres
  have hun : decryptObjectG svc now' (encryptObjectG svc ivf now doc F exp)
      = decryptFieldsAux svc now'
          (encryptFieldsAux svc ivf now doc exp 0 F
            (doc.map fun p => (p.1, FVal.plain p.2))).2
          (encryptFieldsAux svc ivf now doc exp 0 F
            (doc.map fun p => (p.1, FVal.plain p.2))).1 := rfl
  constructor
  · rw [hun]
    refine assoc_ext _ _ (by rw [hd1, hkeys0]) (by rw [hd1]; exact hnodup) ?_
    intro k
    rw [assocGet_map]
    by_cases hk : k ∈ (encryptFieldsAux svc ivf now doc exp 0 F
        (doc.map fun p => (p.1, FVal.plain p.2))).2
    · exact hd2 k hk
    · rw [hd3 k hk, he3 k hk, assocGet_map]
  · intro f hf
    have hnot : f ∉ (encryptFieldsAux svc ivf now doc exp 0 F
        (doc.map fun p => (p.1, FVal.plain p.2))).2 :=
      fun h => hf (he2 f h).1
    rw [show (encryptObjectG svc ivf now doc F exp).fields
        = (encryptFieldsAux svc ivf now doc exp 0 F
            (doc.map fun p => (p.1, FVal.plain p.2))).1 from rfl]
    rw [he3 f hnot, assocGet_map]

/-! ## Service data model (src/types, services/SecretContextService.ts)

The per-kind entry types spread an envelope's fields into the object; the
model nests the envelope as `value`.  Timestamps (`toISOString` strings in
the source) are carried as `Nat` milliseconds.
-/

/-- `EncryptedCredential`: envelope + credential type, provider, metadata. -/
structure EncryptedCredential where
  value : EncryptedValue
  credential_type : String
  provider : String
  metaCreatedBy : String
  metaProvider : String
  metaKeyName : String
deriving DecidableEq, Repr

structure SSHKeyMetadata where
  description : Option String
  allowed_hosts : Option (List String)
deriving DecidableEq, Repr

/-- Model of `hash(publicKey).substring(0, 32)`: a truncation of the
symbolic digest, kept symbolic like the digest itself. -/
inductive Fingerprint where
  | trunc (d : Digest) (len : Nat)
deriving DecidableEq, Repr

/-- `EncryptedSSHKey`: envelope + key type, public key, fingerprint. -/
structure EncryptedSSHKey where
  value : EncryptedValue
  key_type : String
  public_key : String
  fingerprint : Fingerprint
  metadata : SSHKeyMetadata
deriving DecidableEq, Repr

/-- `EncryptedCertificate`: envelope + certificate type, CN, expiry. -/
structure EncryptedCertificate where
  value : EncryptedValue
  certificate_type : String
  common_name : String
  expires_at : Nat
deriving DecidableEq, Repr

/-- One of the three per-kind fields of a context document.  A plain
`SecretContext` holds a name→entry map; a document read back from the store
holds the single envelope `encryptObject` wrote there (the C1 analysis), to
which later JS property writes may have added entries (`extra`). -/
inductive KindField (α : Type) where
  | map (m : List (String × α))
  | env (e : EncryptedValue) (extra : List (String × α))
deriving DecidableEq, Repr

/-- Result of the JS property read `field[key]`: a genuine entry, or one of
a stored envelope's own scalar properties (its JSON value). -/
inductive PropHit (α : Type) where
  | entry (a : α)
  | raw (v : JVal)
deriving DecidableEq, Repr

/-- JS truthiness of a JSON value. -/
def jvalTruthy : JVal → Bool
  | .null => false
  | .bool b => b
  | .num n => n ≠ 0
  | .str s => s ≠ ""
  | .arr _ => true
  | .obj _ => true

/-- Hex rendering of one ciphertext byte. -/
def byteHex (b : Nat) : String :=
  String.mk [hexDigitChar (b / 16 % 16), hexDigitChar (b % 16)]

/-- The ciphertext/IV hex strings of the source. -/
def bytesHex (bs : List Nat) : String :=
  String.join (bs.map byteHex)

/-- Rendering of the symbolic auth tag (the tag hex string of the source). -/
def Tag.render : Tag → String
  | .mac key iv ct =>
    "mac:" ++ String.mk (natChars key) ++ ":" ++ String.mk (natChars iv)
      ++ ":" ++ bytesHex ct

/-- The JSON object shape of a stored envelope (property order as created
by `encrypt`: `expires_at` is attached last when present). -/
def EncryptedValue.toJVal (e : EncryptedValue) : JVal :=
  .obj ([("encrypted_data", .str (bytesHex e.encrypted_data)),
         ("algorithm", .str e.algorithm),
         ("iv", .str (bytesHex [e.iv / 256, e.iv % 256])),
         ("created_at", .num (Int.ofNat e.created_at)),
         ("auth_tag", match e.auth_tag with
           | some t => .str t.render
           | none => .null),
         ("key_version", .str e.key_version)]
    ++ (match e.expires_at with
        | some x => [("expires_at", .num (Int.ofNat x))]
        | none => []))

def EncryptedCredential.toJVal (c : EncryptedCredential) : JVal :=
  match c.value.toJVal with
  | .obj fs =>
    .obj (fs ++ [("credential_type", .str c.credential_type),
      ("provider", .str c.provider),
      ("metadata", .obj [("created_by", .str c.metaCreatedBy),
        ("provider", .str c.metaProvider),
        ("key_name", .str c.metaKeyName)])])
  | v => v

def SSHKeyMetadata.toJVal (m : SSHKeyMetadata) : JVal :=
  .obj ((match m.description with
          | some d => [("description", JVal.str d)]
          | none => [])
    ++ (match m.allowed_hosts with
        | some hs => [("allowed_hosts", JVal.arr (hs.map .str))]
        | none => []))

def Fingerprint.render : Fingerprint → String
  | .trunc (.sha256 s) len => "sha256trunc:" ++ String.mk (natChars len) ++ ":" ++ s

def EncryptedSSHKey.toJVal (k : EncryptedSSHKey) : JVal :=
  match k.value.toJVal with
  | .obj fs =>
    .obj (fs ++ [("key_type", .str k.key_type),
      ("public_key", .str k.public_key),
      ("fingerprint", .str k.fingerprint.render),
      ("metadata", k.metadata.toJVal)])
  | v => v

def EncryptedCertificate.toJVal (c : EncryptedCertificate) : JVal :=
  match c.value.toJVal with
  | .obj fs =>
    .obj (fs ++ [("certificate_type", .str c.certificate_type),
      ("common_name", .str c.common_name),
      ("expires_at", .num (Int.ofNat c.expires_at))])
  | v => v

/-- The JSON object a per-kind field serialises to (`JSON.stringify` input). -/
def KindField.toJVal {α : Type} (f : α → JVal) : KindField α → JVal
  | .map m => .obj (m.map fun p => (p.1, f p.2))
  | .env e extra =>
    match e.toJVal with
    | .obj fs => .obj (fs ++ extra.map fun p => (p.1, f p.2))
    | v => v

/-- JS property read `field[key]`. -/
def KindField.hit {α : Type} : KindField α → String → Option (PropHit α)
  | .map m, k => (assocGet m k).map .entry
  | .env e extra, k =>
    match assocGet extra k with
    | some a => some (.entry a)
    | none =>
      match e.toJVal with
      | .obj fs => (assocGet fs k).map .raw
      | _ => none

/-- JS property write `field[key] = a`. -/
def KindField.set {α : Type} : KindField α → String → α → KindField α
  | .map m, k, a => .map (assocSet m k a)
  | .env e extra, k, a => .env e (assocSet extra k a)

/-- JS `delete field[key]`.  On an `env` form whose hit was one of the
envelope's own scalar properties the deletion of that property is not
representable here; no theorem exercises that corner (their hypotheses put
the touched field in `map` form or the key absent). -/
def KindField.erase {α : Type} : KindField α → String → KindField α
  | .map m, k => .map (assocErase m k)
  | .env e extra, k => .env e (assocErase extra k)

/-- A row of the `secret_contexts` table / a cached context document. -/
structure CtxDoc where
  id : String
  workspace_id : String
  user_id : String
  api_keys : List (String × EncryptedValue)
  credentials : KindField EncryptedCredential
  ssh_keys : KindField EncryptedSSHKey
  certificates : KindField EncryptedCertificate
  created_at : Nat
  updated_at : Nat
  encrypted_fields : Option (List String)
deriving DecidableEq, Repr

/-- `AuditLog` (src/types), as assembled by `createAuditLog`. -/
structure AuditLog where
  id : String
  workspace_id : String
  user_id : String
  operation : String
  context_type : String
  resource_key : String
  ip_address : String
  user_agent : String
  timestamp : Nat
  status : String
  old_value_hash : Option Digest
  new_value_hash : Option Digest
  error_message : Option String
deriving DecidableEq, Repr

/-- The stored tables the service touches. -/
structure DBState where
  secret_contexts : List CtxDoc
  audit_logs : List AuditLog
deriving DecidableEq, Repr

/-- Database, cache and cache-backend availability.  `cacheOk = false`
models a throwing cache backend: `DatabaseClient` catches every cache error,
so a get degrades to a miss and set/delete to no-ops. -/
structure SysState where
  db : DBState
  cache : List (String × CtxDoc)
  cacheOk : Bool
deriving DecidableEq, Repr

/-- The collaborator calls an operation performs, in order. -/
inductive Event where
  | cacheGet (key : String)
  | cacheSet (key : String)
  | dbRead (table : String)
  | dbWrite (table : String)
  | auditAppend
  | cacheDelete (key : String)
deriving DecidableEq, Repr

/-- The non-deterministic inputs of one operation: `crypto.randomUUID`
values, the random IVs, and the clock. -/
structure Gen where
  ctxId : String
  auditId : String
  iv : Nat
  ivs : Nat → Nat
  now : Nat

/-- `DatabaseClient.generateCacheKey` with the `cv:context:` prefix. -/
def generateCacheKey (t : String) (ids : List String) : String :=
  "cv:context:" ++ t ++ ":" ++ String.intercalate ":" ids

def cacheGetS (st : SysState) (key : String) : Option CtxDoc :=
  if st.cacheOk then assocGet st.cache key else none

def cacheSetS (st : SysState) (key : String) (d : CtxDoc) : SysState :=
  if st.cacheOk then { st with cache := assocSet st.cache key d } else st

def cacheDeleteS (st : SysState) (key : String) : SysState :=
  if st.cacheOk then { st with cache := assocErase st.cache key } else st

/-- `getSecretContext`: cache probe, then
`findByUserAndWorkspace('secret_contexts', userId, workspaceId)` taking
`results[0] || null`, with a 300-second cache fill on a hit from the store. -/
def getSecretContextM (st : SysState) (W U : String) :
    Option CtxDoc × SysState × List Event :=
  let ck := generateCacheKey "secret_context" [W, U]
  match cacheGetS st ck with
  | some d => (some d, st, [.cacheGet ck])
  | none =>
    match (st.db.secret_contexts.filter fun d =>
        d.user_id = U ∧ d.workspace_id = W).head? with
    | some d =>
      (some d, cacheSetS st ck d, [.cacheGet ck, .dbRead "secret_contexts", .cacheSet ck])
    | none => (none, st, [.cacheGet ck, .dbRead "secret_contexts"])

/-- `encryptObject(secretContext, ['credentials','ssh_keys','certificates'])`
specialised to context documents (the generic dynamic-document form is
`encryptObjectG` above): the three per-kind fields are objects, hence always
present and non-null, so each is stringified and replaced by an envelope. -/
def encryptCtxDoc (svc : EncryptionService) (ivf : Nat → Nat) (now : Nat)
    (d : CtxDoc) : CtxDoc :=
  { d with
    credentials := .env (svc.encrypt (ivf 0) now
      (jsonStringify (d.credentials.toJVal EncryptedCredential.toJVal)) none) []
    ssh_keys := .env (svc.encrypt (ivf 1) now
      (jsonStringify (d.ssh_keys.toJVal EncryptedSSHKey.toJVal)) none) []
    certificates := .env (svc.encrypt (ivf 2) now
      (jsonStringify (d.certificates.toJVal EncryptedCertificate.toJVal)) none) []
    encrypted_fields := some ["credentials", "ssh_keys", "certificates"] }

/-- `saveSecretContext`: field-encrypt the whole context, then
`findById`-guarded insert-or-update. -/
def saveSecretContextM (svc : EncryptionService) (g : Gen) (st : SysState)
    (ctx : CtxDoc) : SysState × List Event :=
  let enc := encryptCtxDoc svc g.ivs g.now ctx
  let rows :=
    match st.db.secret_contexts.find? fun d => d.id = ctx.id with
    | some _ =>
      st.db.secret_contexts.map fun d => if d.id = ctx.id then enc else d
    | none => st.db.secret_contexts ++ [enc]
  ({ st with db := { st.db with secret_contexts := rows } },
   [.dbRead "secret_contexts", .dbWrite "secret_contexts"])

/-- The entry `createAuditLog` assembles from its partial data. -/
def mkAuditLog (g : Gen) (W U op key status : String)
    (oldH newH : Option Digest) (errM : Option String) : AuditLog :=
  { id := g.auditId, workspace_id := W, user_id := U, operation := op,
    context_type := "secret", resource_key := key,
    ip_address := "system", user_agent := "cv-context-manager",
    timestamp := g.now, status := status,
    old_value_hash := oldH, new_value_hash := newH, error_message := errM }

/-- `createAuditLog`: append to `audit_logs`.  An insert failure is caught
and logged in the source, never propagated; the sink is reliable here. -/
def createAuditLogM (st : SysState) (a : AuditLog) : SysState × List Event :=
  ({ st with db := { st.db with audit_logs := st.db.audit_logs ++ [a] } },
   [.auditAppend])

/-- `createEmptySecretContext` (also inlined in `storeCredential`). -/
def createEmptySecretContextM (g : Gen) (W U : String) : CtxDoc :=
  { id := g.ctxId, workspace_id := W, user_id := U, api_keys := []
    credentials := .map [], ssh_keys := .map [], certificates := .map []
    created_at := g.now, updated_at := g.now, encrypted_fields := none }

/-- `storeCredential`: encrypt, load-or-create, upsert the entry, persist,
audit (`new_value_hash` = hash of the plaintext), invalidate cache. -/
def storeCredentialM (svc : EncryptionService) (g : Gen) (st : SysState)
    (W U key value ctype provider : String) (expiresAt : Option Nat) :
    SysState × List Event :=
  let cred : EncryptedCredential :=
    { value := svc.encrypt g.iv g.now value expiresAt
      credential_type := ctype, provider := provider
      metaCreatedBy := U, metaProvider := provider, metaKeyName := key }
  let r1 := getSecretContextM st W U
  let ctx := match r1.1 with
    | some c => c
    | none => createEmptySecretContextM g W U
  let ctx' := { ctx with
    credentials := ctx.credentials.set key cred
    updated_at := g.now }
  let r2 := saveSecretContextM svc g r1.2.1 ctx'
  let r3 := createAuditLogM r2.1
    (mkAuditLog g W U "store_credential" key "success" none
      (some (svc.hash value)) none)
  let ck := generateCacheKey "secret_context" [W, U]
  (cacheDeleteS r3.1 ck, r1.2.2 ++ r2.2 ++ r3.2 ++ [.cacheDelete ck])

deriving instance DecidableEq for Except

/-- `getCredential`: load, look up the entry, decrypt; audit on both paths.
A `raw` hit (a stored envelope's own scalar property) makes the source's
`decrypt` throw on its first property access, taking the failure path. -/
def getCredentialM (svc : EncryptionService) (g : Gen) (st : SysState)
    (W U key : String) :
    Except String (Option String) × SysState × List Event :=
  let r1 := getSecretContextM st W U
  match r1.1 with
  | none => (.ok none, r1.2.1, r1.2.2)
  | some ctx =>
    match ctx.credentials.hit key with
    | none => (.ok none, r1.2.1, r1.2.2)
    | some h =>
      match h with
      | .raw v =>
        if jvalTruthy v then
          let r2 := createAuditLogM r1.2.1
            (mkAuditLog g W U "get_credential" key "failed" none none
              (some "decrypt error"))
          (.error ("Failed to decrypt credential " ++ key), r2.1, r1.2.2 ++ r2.2)
        else (.ok none, r1.2.1, r1.2.2)
      | .entry cred =>
        match svc.decrypt g.now cred.value with
        | .ok s =>
          let r2 := createAuditLogM r1.2.1
            (mkAuditLog g W U "get_credential" key "success" none none none)
          (.ok (some s), r2.1, r1.2.2 ++ r2.2)
        | .error _ =>
          let r2 := createAuditLogM r1.2.1
            (mkAuditLog g W U "get_credential" key "failed" none none
              (some "decrypt error"))
          (.error ("Failed to decrypt credential " ++ key), r2.1, r1.2.2 ++ r2.2)

/-- `generateSSHFingerprint`. -/
def generateSSHFingerprintM (svc : EncryptionService) (publicKey : String) :
    Fingerprint :=
  .trunc (svc.hash publicKey) 32

/-- `storeSSHKey`: like `storeCredential` for the `ssh_keys` map; its audit
entry carries no value hash. -/
def storeSSHKeyM (svc : EncryptionService) (g : Gen) (st : SysState)
    (W U keyName privateKey publicKey keyType : String)
    (metadata : Option SSHKeyMetadata) : SysState × List Event :=
  let sshKey : EncryptedSSHKey :=
    { value := svc.encrypt g.iv g.now privateKey none
      key_type := keyType, public_key := publicKey
      fingerprint := generateSSHFingerprintM svc publicKey
      metadata := metadata.getD ⟨none, none⟩ }
  let r1 := getSecretContextM st W U
  let ctx := match r1.1 with
    | some c => c
    | none => createEmptySecretContextM g W U
  let ctx' := { ctx with
    ssh_keys := ctx.ssh_keys.set keyName sshKey
    updated_at := g.now }
  let r2 := saveSecretContextM svc g r1.2.1 ctx'
  let r3 := createAuditLogM r2.1
    (mkAuditLog g W U "store_ssh_key" keyName "success" none none none)
  let ck := generateCacheKey "secret_context" [W, U]
  (cacheDeleteS r3.1 ck, r1.2.2 ++ r2.2 ++ r3.2 ++ [.cacheDelete ck])

inductive SecretType where
  | credential
  | ssh_key
  | certificate
deriving DecidableEq, Repr

/-- `secretContext[`${secretType}s`]?.[key]`, as a JSON value for the
pre-deletion hash (`hash(JSON.stringify(...))`). -/
def deleteHitJVal (ctx : CtxDoc) : SecretType → String → Option (JVal × Bool)
  | .credential, k =>
    (ctx.credentials.hit k).map fun h =>
      match h with
      | .entry c => (c.toJVal, true)
      | .raw v => (v, jvalTruthy v)
  | .ssh_key, k =>
    (ctx.ssh_keys.hit k).map fun h =>
      match h with
      | .entry c => (c.toJVal, true)
      | .raw v => (v, jvalTruthy v)
  | .certificate, k =>
    (ctx.certificates.hit k).map fun h =>
      match h with
      | .entry c => (c.toJVal, true)
      | .raw v => (v, jvalTruthy v)

/-- `deleteSecret`: absent (or falsy) entry means `false` and no effects;
otherwise delete the entry, persist, audit with the pre-deletion hash,
invalidate the cache, return `true`. -/
def deleteSecretM (svc : EncryptionService) (g : Gen) (st : SysState)
    (W U : String) (secretType : SecretType) (key : String) :
    Bool × SysState × List Event :=
  let r1 := getSecretContextM st W U
  match r1.1 with
  | none => (false, r1.2.1, r1.2.2)
  | some ctx =>
    match deleteHitJVal ctx secretType key with
    | none => (false, r1.2.1, r1.2.2)
    | some (hv, truthy) =>
      if truthy then
        let ctx' :=
          match secretType with
          | .credential =>
            { ctx with credentials := (ctx.credentials.erase key), updated_at := g.now }
          | .ssh_key =>
            { ctx with ssh_keys := (ctx.ssh_keys.erase key), updated_at := g.now }
          | .certificate =>
            { ctx with certificates := (ctx.certificates.erase key), updated_at := g.now }
        let r2 := saveSecretContextM svc g r1.2.1 ctx'
        let r3 := createAuditLogM r2.1
          (mkAuditLog g W U "delete_secret" key "success"
            (some (svc.hash (jsonStringify hv))) none none)
        let ck := generateCacheKey "secret_context" [W, U]
        (true, cacheDeleteS r3.1 ck, r1.2.2 ++ r2.2 ++ r3.2 ++ [.cacheDelete ck])
      else (false, r1.2.1, r1.2.2)

/-! ## `DatabaseClient` cache operations (database/client.ts)

A backend call either returns or throws; `JSOutcome` carries that.  The
in-memory branch stores serialized strings; `parse`/`ser` model the
`JSON.parse`/`JSON.stringify` of the payload (which may themselves throw).
The TTL eviction timer only removes expired keys and is not modelled.
-/

inductive JSOutcome (α : Type) where
  | ok (a : α)
  | threw (msg : String)
deriving DecidableEq, Repr

/-- Behaviour of the Redis backend for one operation each. -/
structure RedisOutcomes where
  getO : JSOutcome (Option String)
  setO : JSOutcome Unit
  delO : JSOutcome Unit

/-- The try-block of `cacheGet`. -/
def cacheGetTry {α : Type} (useMem : Bool) (mem : List (String × String))
    (r : RedisOutcomes) (parse : String → JSOutcome α) (key : String) :
    JSOutcome (Option α) :=
  if useMem then
    match assocGet mem key with
    | some s =>
      if s = "" then .ok none
      else
        match parse s with
        | .ok v => .ok (some v)
        | .threw m => .threw m
    | none => .ok none
  else
    match r.getO with
    | .threw m => .threw m
    | .ok none => .ok none
    | .ok (some s) =>
      if s = "" then .ok none
      else
        match parse s with
        | .ok v => .ok (some v)
        | .threw m => .threw m

/-- `cacheGet`: any thrown backend error is caught and becomes a miss. -/
def dbCacheGet {α : Type} (useMem : Bool) (mem : List (String × String))
    (r : RedisOutcomes) (parse : String → JSOutcome α) (key : String) :
    Option α :=
  match cacheGetTry useMem mem r parse key with
  | .ok v => v
  | .threw _ => none

/-- The try-block of `cacheSet`; the result is the new in-memory map. -/
def cacheSetTry (useMem : Bool) (mem : List (String × String))
    (r : RedisOutcomes) (ser : JSOutcome String) (key : String) :
    JSOutcome (List (String × String)) :=
  match ser with
  | .threw m => .threw m
  | .ok s =>
    if useMem then .ok (assocSet mem key s)
    else
      match r.setO with
      | .threw m => .threw m
      | .ok _ => .ok mem

/-- `cacheSet`: a thrown error is caught ("caching is non-critical"). -/
def dbCacheSet (useMem : Bool) (mem : List (String × String))
    (r : RedisOutcomes) (ser : JSOutcome String) (key : String) :
    List (String × String) :=
  match cacheSetTry useMem mem r ser key with
  | .ok mem2 => mem2
  | .threw _ => mem

/-- The try-block of `cacheDelete`. -/
def cacheDeleteTry (useMem : Bool) (mem : List (String × String))
    (r : RedisOutcomes) (key : String) :
    JSOutcome (List (String × String)) :=
  if useMem then .ok (assocErase mem key)
  else
    match r.delO with
    | .threw m => .threw m
    | .ok _ => .ok mem

/-- `cacheDelete`: a thrown error is caught. -/
def dbCacheDelete (useMem : Bool) (mem : List (String × String))
    (r : RedisOutcomes) (key : String) : List (String × String) :=
  match cacheDeleteTry useMem mem r key with
  | .ok mem2 => mem2
  | .threw _ => mem

/-! ## Bookkeeping lemmas about the service operations -/

theorem cacheSetS_db (st : SysState) (k : String) (d : CtxDoc) :
    (cacheSetS st k d).db = st.db := by
  unfold cacheSetS
  split <;> rfl

theorem cacheSetS_cacheOk (st : SysState) (k : String) (d : CtxDoc) :
    (cacheSetS st k d).cacheOk = st.cacheOk := by
  unfold cacheSetS
  split <;> rfl

theorem cacheDeleteS_db (st : SysState) (k : String) :
    (cacheDeleteS st k).db = st.db := by
  unfold cacheDeleteS
  split <;> rfl

theorem getSecretContextM_db (st : SysState) (W U : String) :
    (getSecretContextM st W U).2.1.db = st.db := by
  simp only [getSecretContextM]
  cases h : cacheGetS st (generateCacheKey "secret_context" [W, U]) with
  | some d => rfl
  | none =>
    cases h2 : (st.db.secret_contexts.filter fun d =>
        d.user_id = U ∧ d.workspace_id = W).head? with
    | some d => exact cacheSetS_db ..
    | none => rfl

theorem getSecretContextM_cacheOk (st : SysState) (W U : String) :
    (getSecretContextM st W U).2.1.cacheOk = st.cacheOk := by
  simp only [getSecretContextM]
  cases h : cacheGetS st (generateCacheKey "secret_context" [W, U]) with
  | some d => rfl
  | none =>
    cases h2 : (st.db.secret_contexts.filter fun d =>
        d.user_id = U ∧ d.workspace_id = W).head? with
    | some d => exact cacheSetS_cacheOk ..
    | none => rfl

theorem saveSecretContextM_db_audit (svc : EncryptionService) (g : Gen)
    (st : SysState) (ctx : CtxDoc) :
    (saveSecretContextM svc g st ctx).1.db.audit_logs = st.db.audit_logs := by
  unfold saveSecretContextM
  rfl

theorem saveSecretContextM_cache (svc : EncryptionService) (g : Gen)
    (st : SysState) (ctx : CtxDoc) :
    (saveSecretContextM svc g st ctx).1.cache = st.cache := by
  unfold saveSecretContextM
  rfl

theorem saveSecretContextM_cacheOk (svc : EncryptionService) (g : Gen)
    (st : SysState) (ctx : CtxDoc) :
    (saveSecretContextM svc g st ctx).1.cacheOk = st.cacheOk := by
  unfold saveSecretContextM
  rfl

theorem saveSecretContextM_db_eq (svc : EncryptionService) (g : Gen)
    (st1 st2 : SysState) (ctx : CtxDoc) (h : st1.db = st2.db) :
    (saveSecretContextM svc g st1 ctx).1.db
      = (saveSecretContextM svc g st2 ctx).1.db := by
  unfold saveSecretContextM
  rw [h]

theorem saveSecretContextM_events (svc : EncryptionService) (g : Gen)
    (st : SysState) (ctx : CtxDoc) :
    (saveSecretContextM svc g st ctx).2
      = [.dbRead "secret_contexts", .dbWrite "secret_contexts"] := by
  unfold saveSecretContextM
  rfl

theorem getSecretContextM_events (st : SysState) (W U : String) :
    ∀ e ∈ (getSecretContextM st W U).2.2,
      e = .cacheGet (generateCacheKey "secret_context" [W, U]) ∨
      e = .dbRead "secret_contexts" ∨
      e = .cacheSet (generateCacheKey "secret_context" [W, U]) := by
  simp only [getSecretContextM]
  cases h : cacheGetS st (generateCacheKey "secret_context" [W, U]) with
  | some d =>
    intro e he
    simp at he
    simp [he]
  | none =>
    cases h2 : (st.db.secret_contexts.filter fun d =>
        d.user_id = U ∧ d.workspace_id = W).head? with
    | some d =>
      intro e he
      simp at he
      rcases he with h3 | h3 | h3 <;> simp [h3]
    | none =>
      intro e he
      simp at he
      rcases he with h3 | h3 <;> simp [h3]

theorem getSecretContextM_audit (st : SysState) (W U : String) :
    (getSecretContextM st W U).2.1.db.audit_logs = st.db.audit_logs := by
  rw [getSecretContextM_db]

theorem assocGet_assocErase_self {α : Type} (l : List (String × α))
    (k : String) (h : (l.map Prod.fst).Nodup) :
    assocGet (assocErase l k) k = none := by
  induction l with
  | nil => rfl
  | cons hd t ih =>
    obtain ⟨k₀, v₀⟩ := hd
    rw [List.map_cons, List.nodup_cons] at h
    by_cases h0 : k₀ = k
    · subst h0
      simp only [assocErase, if_pos rfl]
      exact assocGet_eq_none t k₀ h.1
    · simp [assocErase, assocGet, h0, ih h.2]

theorem KindField.hit_set_self {α : Type} (f : KindField α) (k : String)
    (a : α) : (f.set k a).hit k = some (.entry a) := by
  cases f with
  | map m => simp [KindField.set, KindField.hit, assocGet_assocSet]
  | env e extra => simp [KindField.set, KindField.hit, assocGet_assocSet]

theorem KindField.hit_set_ne {α : Type} (f : KindField α) (k k' : String)
    (a : α) (h : k ≠ k') : (f.set k a).hit k' = f.hit k' := by
  cases f with
  | map m => simp [KindField.set, KindField.hit, assocGet_assocSet, h]
  | env e extra => simp [KindField.set, KindField.hit, assocGet_assocSet, h]

theorem KindField.hit_erase_ne {α : Type} (f : KindField α) (k k' : String)
    (h : k ≠ k') : (f.erase k).hit k' = f.hit k' := by
  cases f with
  | map m => simp [KindField.erase, KindField.hit, assocGet_assocErase _ _ _ h]
  | env e extra => simp [KindField.erase, KindField.hit, assocGet_assocErase _ _ _ h]

theorem KindField.hit_erase_self_map {α : Type} (m : List (String × α))
    (k : String) (h : (m.map Prod.fst).Nodup) :
    ((KindField.map m).erase k).hit k = none := by
  simp [KindField.erase, KindField.hit, assocGet_assocErase_self m k h]

/-- A failed cache backend behaves, for both the returned value and the
stored tables, like a healthy empty cache. -/
theorem getSecretContextM_cacheDown (st : SysState) (W U : String)
    (h : st.cacheOk = false) :
    (getSecretContextM st W U).1
      = (getSecretContextM { st with cache := [], cacheOk := true } W U).1 ∧
    (getSecretContextM st W U).2.1.db
      = (getSecretContextM { st with cache := [], cacheOk := true } W U).2.1.db := by
  refine ⟨?_, ?_⟩ <;>
  · simp only [getSecretContextM, cacheGetS, h]
    cases h2 : (st.db.secret_contexts.filter fun d =>
        d.user_id = U ∧ d.workspace_id = W).head? with
    | some d => simp [h2, assocGet, cacheSetS_db]
    | none => simp [h2, assocGet]

theorem assocSet_keys_notmem {α : Type} (l : List (String × α)) (k : String)
    (v : α) (h : k ∉ l.map Prod.fst) :
    (assocSet l k v).map Prod.fst = l.map Prod.fst ++ [k] := by
  induction l with
  | nil => rfl
  | cons hd t ih =>
    obtain ⟨k₀, v₀⟩ := hd
    rw [List.map_cons, List.mem_cons] at h
    push_neg at h
    by_cases he : k₀ = k
    · exact absurd he.symm h.1
    · simp [assocSet, he, ih h.2]

theorem assocSet_nodup {α : Type} (l : List (String × α)) (k : String)
    (v : α) (h : (l.map Prod.fst).Nodup) :
    ((assocSet l k v).map Prod.fst).Nodup := by
  by_cases hm : k ∈ l.map Prod.fst
  · rw [assocSet_keys l k v hm]
    exact h
  · rw [assocSet_keys_notmem l k v hm]
    simp [List.nodup_append, h, hm]

theorem createAuditLogM_cacheOk (st : SysState) (a : AuditLog) :
    (createAuditLogM st a).1.cacheOk = st.cacheOk := rfl

theorem createAuditLogM_cache (st : SysState) (a : AuditLog) :
    (createAuditLogM st a).1.cache = st.cache := rfl

theorem createAuditLogM_rows (st : SysState) (a : AuditLog) :
    (createAuditLogM st a).1.db.secret_contexts = st.db.secret_contexts := rfl

/-- Shape analysis of `getSecretContext`: a miss, a cache hit (state
untouched), or a store hit (cache refilled). -/
theorem getSecretContextM_cases (st : SysState) (W U : String) :
    getSecretContextM st W U
        = (none, st, [.cacheGet (generateCacheKey "secret_context" [W, U]),
            .dbRead "secret_contexts"]) ∨
    (∃ C, getSecretContextM st W U
        = (some C, st, [.cacheGet (generateCacheKey "secret_context" [W, U])])) ∨
    (∃ C, getSecretContextM st W U
        = (some C,
           cacheSetS st (generateCacheKey "secret_context" [W, U]) C,
           [.cacheGet (generateCacheKey "secret_context" [W, U]),
            .dbRead "secret_contexts",
            .cacheSet (generateCacheKey "secret_context" [W, U])])) := by
  simp only [getSecretContextM]
  cases h1 : cacheGetS st (generateCacheKey "secret_context" [W, U]) with
  | some d => exact Or.inr (Or.inl ⟨d, rfl⟩)
  | none =>
    cases h2 : (st.db.secret_contexts.filter fun d =>
        d.user_id = U ∧ d.workspace_id = W).head? with
    | some d => exact Or.inr (Or.inr ⟨d, rfl⟩)
    | none => exact Or.inl rfl

theorem getSecretContextM_none_state (st : SysState) (W U : String)
    (h : (getSecretContextM st W U).1 = none) :
    (getSecretContextM st W U).2.1 = st := by
  rcases getSecretContextM_cases st W U with he | ⟨C, he⟩ | ⟨C, he⟩ <;>
    rw [he] at h ⊢
  simp at h

theorem getSecretContextM_some_state (st : SysState) (W U : String)
    (C : CtxDoc) (h : (getSecretContextM st W U).1 = some C) :
    (getSecretContextM st W U).2.1 = st ∨
    (getSecretContextM st W U).2.1.cache
      = assocSet st.cache (generateCacheKey "secret_context" [W, U]) C := by
  rcases getSecretContextM_cases st W U with he | ⟨D, he⟩ | ⟨D, he⟩ <;>
    rw [he] at h ⊢
  · simp at h
  · exact Or.inl rfl
  · simp at h
    subst h
    cases h3 : st.cacheOk with
    | true => exact Or.inr (by simp [cacheSetS, h3])
    | false => exact Or.inl (by simp [cacheSetS, h3])

theorem getSecretContextM_cache_nodup (st : SysState) (W U : String)
    (h : (st.cache.map Prod.fst).Nodup) :
    (((getSecretContextM st W U).2.1.cache).map Prod.fst).Nodup := by
  rcases getSecretContextM_cases st W U with he | ⟨C, he⟩ | ⟨C, he⟩ <;> rw [he]
  · exact h
  · exact h
  · cases h3 : st.cacheOk with
    | true => simpa [cacheSetS, h3] using assocSet_nodup st.cache _ C h
    | false => simpa [cacheSetS, h3] using h

theorem cacheDeleteS_get_none (s : SysState) (ck : String)
    (hok : s.cacheOk = true) (hnd : (s.cache.map Prod.fst).Nodup) :
    assocGet (cacheDeleteS s ck).cache ck = none := by
  simp only [cacheDeleteS, hok, if_true]
  exact assocGet_assocErase_self _ _ hnd

theorem createAuditLogM_db_eq (st1 st2 : SysState) (a : AuditLog)
    (h : st1.db = st2.db) :
    (createAuditLogM st1 a).1.db = (createAuditLogM st2 a).1.db := by
  simp only [createAuditLogM]
  rw [h]

/-- `storeCredential` under a failing cache backend: same stored tables as
under a healthy empty cache. -/
theorem storeCredentialM_cacheDown (svc : EncryptionService) (g : Gen)
    (st : SysState) (W U k v ctype provider : String) (exp : Option Nat)
    (h : st.cacheOk = false) :
    (storeCredentialM svc g st W U k v ctype provider exp).1.db
      = (storeCredentialM svc g { st with cache := [], cacheOk := true }
          W U k v ctype provider exp).1.db := by
  obtain ⟨hres, hdb⟩ := getSecretContextM_cacheDown st W U h
  simp only [storeCredentialM]
  rw [cacheDeleteS_db, cacheDeleteS_db, hres]
  exact createAuditLogM_db_eq _ _ _ (saveSecretContextM_db_eq _ _ _ _ _ hdb)

/-- `storeSSHKey` under a failing cache backend: same stored tables as
under a healthy empty cache. -/
theorem storeSSHKeyM_cacheDown (svc : EncryptionService) (g : Gen)
    (st : SysState) (W U kn pk pub kt : String) (md : Option SSHKeyMetadata)
    (h : st.cacheOk = false) :
    (storeSSHKeyM svc g st W U kn pk pub kt md).1.db
      = (storeSSHKeyM svc g { st with cache := [], cacheOk := true }
          W U kn pk pub kt md).1.db := by
  obtain ⟨hres, hdb⟩ := getSecretContextM_cacheDown st W U h
  simp only [storeSSHKeyM]
  rw [cacheDeleteS_db, cacheDeleteS_db, hres]
  exact createAuditLogM_db_eq _ _ _ (saveSecretContextM_db_eq _ _ _ _ _ hdb)

/-- `getCredential` under a failing cache backend returns the same value
(and in particular never an error caused by the cache) as under a healthy
empty cache. -/
theorem getCredentialM_cacheDown (svc : EncryptionService) (g : Gen)
    (st : SysState) (W U k : String) (h : st.cacheOk = false) :
    (getCredentialM svc g st W U k).1
      = (getCredentialM svc g { st with cache := [], cacheOk := true }
          W U k).1 := by
  obtain ⟨hres, hdb⟩ := getSecretContextM_cacheDown st W U h
  cases h1 : (getSecretContextM { st with cache := [], cacheOk := true }
      W U).1 with
  | none => simp only [getCredentialM, hres, h1]
  | some ctx =>
    cases h2 : ctx.credentials.hit k with
    | none => simp only [getCredentialM, hres, h1, h2]
    | some hit =>
      cases hit with
      | raw v =>
        by_cases h3 : jvalTruthy v <;>
          simp only [getCredentialM, hres, h1, h2] <;> simp [h3]
      | entry cred =>
        cases h4 : svc.decrypt g.now cred.value <;>
          simp only [getCredentialM, hres, h1, h2] <;> simp [h4]

/-- `deleteSecret` under a failing cache backend: same returned flag and
same stored tables as under a healthy empty cache. -/
theorem deleteSecretM_cacheDown (svc : EncryptionService) (g : Gen)
    (st : SysState) (W U : String) (ty : SecretType) (k : String)
    (h : st.cacheOk = false) :
    (deleteSecretM svc g st W U ty k).1
      = (deleteSecretM svc g { st with cache := [], cacheOk := true }
          W U ty k).1 ∧
    (deleteSecretM svc g st W U ty k).2.1.db
      = (deleteSecretM svc g { st with cache := [], cacheOk := true }
          W U ty k).2.1.db := by
  obtain ⟨hres, hdb⟩ := getSecretContextM_cacheDown st W U h
  cases h1 : (getSecretContextM { st with cache := [], cacheOk := true }
      W U).1 with
  | none =>
    simp only [deleteSecretM, hres, h1]
    exact ⟨by trivial, hdb⟩
  | some ctx =>
    cases h2 : deleteHitJVal ctx ty k with
    | none =>
      simp only [deleteSecretM, hres, h1, h2]
      exact ⟨by trivial, hdb⟩
    | some p =>
      obtain ⟨hv, truthy⟩ := p
      cases truthy with
      | false =>
        simp only [deleteSecretM, hres, h1, h2, Bool.false_eq_true, if_false]
        exact ⟨by trivial, hdb⟩
      | true =>
        simp only [deleteSecretM, hres, h1, h2, if_true]
        refine ⟨by trivial, ?_⟩
        rw [cacheDeleteS_db, cacheDeleteS_db]
        exact createAuditLogM_db_eq _ _ _ (saveSecretContextM_db_eq _ _ _ _ _ hdb)

/-! ## Concrete fixtures for closed runs -/

/-- A concrete engine (`new EncryptionService('test-master-key')`). -/
def svcT : EncryptionService := EncryptionService.create "test-master-key" "1"

def genT : Gen :=
  { ctxId := "ctx-1", auditId := "audit-1", iv := 11, ivs := fun i => 100 + i,
    now := 1000 }

def genT2 : Gen :=
  { ctxId := "ctx-2", auditId := "audit-2", iv := 12, ivs := fun i => 200 + i,
    now := 2000 }

/-- Fresh deployment: empty tables, empty healthy cache. -/
def st0 : SysState :=
  { db := { secret_contexts := [], audit_logs := [] }, cache := [],
    cacheOk := true }

/-! ## The claims -/

/-- C2: for every plaintext — including `""` and multi-byte Unicode, since
`p : String` ranges over all Unicode strings — decrypting the envelope
produced by `encrypt` with no expiry or a still-future expiry on the same
engine returns exactly the plaintext. -/
theorem encrypt_decrypt_roundtrip_unexpired (svc : EncryptionService)
    (iv now now' : Nat) (p : String) (exp : Option Nat)
    (h : exp = none ∨ ∃ e, exp = some e ∧ now' < e) :
    svc.decrypt now' (svc.encrypt iv now p exp) = .ok p := by
  apply decrypt_encrypt
  rcases h with h | ⟨e, he, hlt⟩
  · simp [h, isExpiredAt]
  · simp [he, isExpiredAt]
    omega

theorem encrypt_decrypt_roundtrip_unexpired_witness :
    svcT.decrypt 50 (svcT.encrypt 7 10 "héllo🔐wörld" none) = .ok "héllo🔐wörld" ∧
    svcT.decrypt 50 (svcT.encrypt 7 10 "" (some 99)) = .ok "" :=
  ⟨encrypt_decrypt_roundtrip_unexpired svcT 7 10 50 "héllo🔐wörld" none (Or.inl rfl),
   encrypt_decrypt_roundtrip_unexpired svcT 7 10 50 "" (some 99)
     (Or.inr ⟨99, rfl, by decide⟩)⟩

/-- C5: on any envelope whose `expires_at` is set and strictly past,
`decrypt` fails with the expiry error — the envelope's tag, ciphertext and
even algorithm string are arbitrary here, so the check precedes any
cryptographic verification; and with `expires_at` absent or strictly in the
future, `decrypt` never produces the expiry error. -/
theorem decrypt_expiry_first (svc : EncryptionService) (now : Nat)
    (env : EncryptedValue) :
    (∀ e, env.expires_at = some e → e < now →
      svc.decrypt now env = .error .expired) ∧
    ((env.expires_at = none ∨ ∃ e, env.expires_at = some e ∧ now < e) →
      svc.decrypt now env ≠ .error .expired) := by
  constructor
  · intro e he hlt
    simp [EncryptionService.decrypt, isExpiredAt, he, hlt]
  · intro h
    have hx : isExpiredAt env.expires_at now = false := by
      rcases h with h | ⟨e, he, hlt⟩
      · simp [isExpiredAt, h]
      · simp [isExpiredAt, he]
        omega
    simp only [EncryptionService.decrypt, hx, Bool.false_eq_true, if_false]
    split
    · simp
    · split
      · simp
      · split <;> simp

def envExpired : EncryptedValue :=
  { encrypted_data := [1, 2, 3], algorithm := "rot13", iv := 0,
    created_at := 0, expires_at := some 1,
    auth_tag := some (Tag.mac 99 99 [7]), key_version := "1" }

theorem decrypt_expiry_first_witness :
    svcT.decrypt 5 envExpired = .error .expired ∧
    svcT.decrypt 5 { envExpired with expires_at := some 99 } ≠ .error .expired :=
  ⟨(decrypt_expiry_first svcT 5 envExpired).1 1 rfl (by decide),
   (decrypt_expiry_first svcT 5 { envExpired with expires_at := some 99 }).2
     (Or.inr ⟨99, rfl, by decide⟩)⟩

/-- C6: altering any single byte of a fresh envelope's ciphertext, or
replacing its auth tag by any other tag, yields an envelope on which
`verify` is `false` and `decrypt` fails with the integrity error (in
particular it never returns altered or partial plaintext). -/
theorem tampered_envelope_rejected (svc : EncryptionService)
    (iv now now' : Nat) (p : String) :
    (∀ pre b c post,
      (svc.encrypt iv now p none).encrypted_data = pre ++ c :: post →
      b ≠ c →
      svc.verify now' { svc.encrypt iv now p none with
          encrypted_data := pre ++ b :: post } = false ∧
      svc.decrypt now' { svc.encrypt iv now p none with
          encrypted_data := pre ++ b :: post } = .error .integrity) ∧
    (∀ t, some t ≠ (svc.encrypt iv now p none).auth_tag →
      svc.verify now' { svc.encrypt iv now p none with
          auth_tag := some t } = false ∧
      svc.decrypt now' { svc.encrypt iv now p none with
          auth_tag := some t } = .error .integrity) := by
  constructor
  · intro pre b c post hct hbc
    simp only [EncryptionService.encrypt] at hct
    have hdec : svc.decrypt now' { svc.encrypt iv now p none with
        encrypted_data := pre ++ b :: post } = .error .integrity := by
      simp [EncryptionService.encrypt, EncryptionService.decrypt,
        isExpiredAt, hct, hbc.symm]
    exact ⟨by simp [EncryptionService.verify, hdec], hdec⟩
  · intro t ht
    simp only [EncryptionService.encrypt] at ht
    have hne : t ≠ Tag.mac svc.key iv (encodeStream svc.key iv 0 p.data) := by
      intro h
      exact ht (by simp [h])
    have hdec : svc.decrypt now' { svc.encrypt iv now p none with
        auth_tag := some t } = .error .integrity := by
      simp [EncryptionService.encrypt, EncryptionService.decrypt,
        isExpiredAt, hne]
    exact ⟨by simp [EncryptionService.verify, hdec], hdec⟩

def envC6 : EncryptedValue := svcT.encrypt 3 5 "A" none

theorem tampered_envelope_rejected_witness :
    (svcT.verify 9 { envC6 with
        encrypted_data := [] ++ (envC6.encrypted_data.headD 0 + 1)
          :: envC6.encrypted_data.tail } = false ∧
     svcT.decrypt 9 { envC6 with
        encrypted_data := [] ++ (envC6.encrypted_data.headD 0 + 1)
          :: envC6.encrypted_data.tail } = .error .integrity) ∧
    (svcT.verify 9 { envC6 with auth_tag := some (Tag.mac 0 0 []) } = false ∧
     svcT.decrypt 9 { envC6 with auth_tag := some (Tag.mac 0 0 []) }
       = .error .integrity) :=
  ⟨(tampered_envelope_rejected svcT 3 5 9 "A").1 []
      (envC6.encrypted_data.headD 0 + 1) (envC6.encrypted_data.headD 0)
      envC6.encrypted_data.tail (by decide) (by decide),
   (tampered_envelope_rejected svcT 3 5 9 "A").2 (Tag.mac 0 0 []) (by decide)⟩

/-- C1: the end-to-end store/get round trip fails in the code.  On a fresh
system, `storeCredential` persists the context through
`saveSecretContext`, which field-encrypts the whole `credentials` map via
`encryptObject`; the read path (`getSecretContext` → `getCredential`)
never calls `decryptObject`, so the reloaded document's `credentials` is a
ciphertext envelope with no `"openai_key"` property and `getCredential`
returns `null` instead of the stored value. -/
theorem store_then_get_credential_loses_value :
    (getCredentialM svcT genT2
        (storeCredentialM svcT genT st0 "W1" "U1" "openai_key" "sk-test-123"
          "api_key" "openai" none).1
        "W1" "U1" "openai_key").1 = .ok none ∧
    (getCredentialM svcT genT2
        (storeCredentialM svcT genT st0 "W1" "U1" "openai_key" "sk-test-123"
          "api_key" "openai" none).1
        "W1" "U1" "openai_key").1 ≠ .ok (some "sk-test-123") :=
  ⟨by decide, by decide⟩

/-- C3 counterexample: a successful `storeSSHKey` run whose single appended
audit entry has no `new_value_hash` at all — the source's `storeSSHKey`
audit payload simply omits the field — so it is not the SHA-256 of the
stored private key. -/
theorem storeSSHKey_audit_hash_missing :
    ((storeSSHKeyM svcT genT st0 "W1" "U1" "deploy" "PRIVKEY" "PUBKEY"
        "ed25519" none).1.db.audit_logs.map AuditLog.new_value_hash)
      = [none] ∧
    ((storeSSHKeyM svcT genT st0 "W1" "U1" "deploy" "PRIVKEY" "PUBKEY"
        "ed25519" none).1.db.audit_logs.map AuditLog.new_value_hash)
      ≠ [some (Digest.sha256 "PRIVKEY")] :=
  ⟨by decide, by decide⟩

/-- C3 (amended): every successful `storeCredential` appends exactly one
audit entry, whose `new_value_hash` is the SHA-256 hash of the stored
plaintext value; every successful `storeSSHKey` also appends exactly one
audit entry, but it carries no `new_value_hash` (the field is absent). -/
theorem store_audit_value_hash (svc : EncryptionService) (g : Gen)
    (st : SysState) (W U k v ctype provider : String) (exp : Option Nat)
    (kn pk pub kt : String) (md : Option SSHKeyMetadata) :
    (storeCredentialM svc g st W U k v ctype provider exp).1.db.audit_logs
      = st.db.audit_logs
        ++ [mkAuditLog g W U "store_credential" k "success" none
            (some (svc.hash v)) none] ∧
    (storeSSHKeyM svc g st W U kn pk pub kt md).1.db.audit_logs
      = st.db.audit_logs
        ++ [mkAuditLog g W U "store_ssh_key" kn "success" none none none] := by
  constructor
  · simp only [storeCredentialM]
    rw [cacheDeleteS_db]
    simp only [createAuditLogM]
    rw [saveSecretContextM_db_audit, getSecretContextM_audit]
  · simp only [storeSSHKeyM]
    rw [cacheDeleteS_db]
    simp only [createAuditLogM]
    rw [saveSecretContextM_db_audit, getSecretContextM_audit]

/-- The temporal rule the spec states for the write path: in the event
trace, every cache invalidation comes before every audit append. -/
def invalidateBeforeAudit (tr : List Event) : Prop :=
  ∀ (i j : Nat) (k : String),
    tr[i]? = some (Event.cacheDelete k) → tr[j]? = some Event.auditAppend →
    i < j

/-- C4 counterexample: in a concrete successful `storeCredential` run the
cache invalidation (index 5 of the trace) comes after the audit append
(index 4), refuting the claimed persist → invalidate → audit order. -/
theorem storeCredential_invalidates_after_audit :
    ¬ invalidateBeforeAudit
        (storeCredentialM svcT genT st0 "W1" "U1" "openai_key" "sk-test-123"
          "api_key" "openai" none).2 := by
  intro h
  have h5 := h 5 4 (generateCacheKey "secret_context" ["W1", "U1"])
    (by decide) (by decide)
  omega

/-- C4 (amended): on every successful write-path operation the actual order
is persist (the store read/write pair), then the audit append, then the
cache invalidation, last; the prefix before that block is the context load
and contains no store write, no audit append and no invalidation. -/
theorem write_path_event_order (svc : EncryptionService) (g : Gen)
    (st : SysState) (W U k v ctype provider : String) (exp : Option Nat)
    (kn pk pub kt : String) (md : Option SSHKeyMetadata) :
    (∃ p, (storeCredentialM svc g st W U k v ctype provider exp).2
        = p ++ [.dbRead "secret_contexts", .dbWrite "secret_contexts",
            .auditAppend,
            .cacheDelete (generateCacheKey "secret_context" [W, U])] ∧
      ∀ e ∈ p, (∀ t, e ≠ .dbWrite t) ∧ e ≠ .auditAppend ∧
        ∀ ck, e ≠ .cacheDelete ck) ∧
    (∃ p, (storeSSHKeyM svc g st W U kn pk pub kt md).2
        = p ++ [.dbRead "secret_contexts", .dbWrite "secret_contexts",
            .auditAppend,
            .cacheDelete (generateCacheKey "secret_context" [W, U])] ∧
      ∀ e ∈ p, (∀ t, e ≠ .dbWrite t) ∧ e ≠ .auditAppend ∧
        ∀ ck, e ≠ .cacheDelete ck) := by
  constructor
  · refine ⟨(getSecretContextM st W U).2.2, ?_, ?_⟩
    · simp only [storeCredentialM, saveSecretContextM_events, createAuditLogM]
      simp [List.append_assoc]
    · intro e he
      rcases getSecretContextM_events st W U e he with h | h | h <;> simp [h]
  · refine ⟨(getSecretContextM st W U).2.2, ?_, ?_⟩
    · simp only [storeSSHKeyM, saveSecretContextM_events, createAuditLogM]
      simp [List.append_assoc]
    · intro e he
      rcases getSecretContextM_events st W U e he with h | h | h <;> simp [h]

/-- C7 counterexample: a document whose encrypted field was originally the
string `"42"` does not round-trip: `decryptObject` re-parses every
decrypted payload with `JSON.parse`, so the numeric-looking string comes
back as the number `42`. -/
theorem encrypt_decrypt_fields_reparses_strings :
    decryptObjectG svcT 5 (encryptObjectG svcT (fun i => 10 + i) 3
        [("a", JVal.str "42")] ["a"] none)
      = [("a", FVal.plain (JVal.num 42))] ∧
    [("a", FVal.plain (JVal.num 42))]
      ≠ [("a", FVal.plain (JVal.str "42"))] :=
  ⟨by decide, by decide⟩

/-- C7 (amended): for a document with distinct keys, an unexpired envelope
and named string fields that are not themselves parseable JSON texts,
`decryptObject ∘ encryptObject` restores the document exactly (each named
field back to its original value and shape, the bookkeeping property
stripped), and fields outside the listed set are unchanged in the
intermediate encrypted document.  (Fields absent from the document are
skipped by both directions, so presence is not needed.) -/
theorem encrypt_decrypt_fields_roundtrip (svc : EncryptionService)
    (ivf : Nat → Nat) (now now' : Nat) (doc : List (String × JVal))
    (F : List String) (exp : Option Nat)
    (hnodup : (doc.map Prod.fst).Nodup)
    (hstr : ∀ f s, f ∈ F → assocGet doc f = some (JVal.str s) →
      jsonParse s = none)
    (hexp : isExpiredAt exp now' = false) :
    decryptObjectG svc now' (encryptObjectG svc ivf now doc F exp)
      = doc.map (fun p => (p.1, FVal.plain p.2)) ∧
    ∀ f, f ∉ F →
      assocGet (encryptObjectG svc ivf now doc F exp).fields f
        = (assocGet doc f).map FVal.plain :=
  encryptObject_decryptObject_roundtrip svc ivf now now' doc F exp hnodup
    hstr hexp

def docC7 : List (String × JVal) :=
  [("public", JVal.str "p"), ("secretA", JVal.str "hush-a"),
   ("n", JVal.num 42)]

theorem encrypt_decrypt_fields_roundtrip_witness :
    decryptObjectG svcT 5 (encryptObjectG svcT (fun i => 10 + i) 3 docC7
        ["secretA"] none)
      = [("public", FVal.plain (JVal.str "p")),
         ("secretA", FVal.plain (JVal.str "hush-a")),
         ("n", FVal.plain (JVal.num 42))] ∧
    assocGet (encryptObjectG svcT (fun i => 10 + i) 3 docC7
        ["secretA"] none).fields "public"
      = some (FVal.plain (JVal.str "p")) :=
  ⟨(encrypt_decrypt_fields_roundtrip svcT (fun i => 10 + i) 3 5 docC7
      ["secretA"] none (by decide)
      (fun f s hf hg => by
        have hf2 : f = "secretA" := by simpa using hf
        subst hf2
        have hval : assocGet docC7 "secretA" = some (JVal.str "hush-a") := by
          decide
        rw [hval] at hg
        injection hg with h1
        injection h1 with h2
        subst h2
        decide)
      (by decide)).1,
   (encrypt_decrypt_fields_roundtrip svcT (fun i => 10 + i) 3 5 docC7
      ["secretA"] none (by decide)
      (fun f s hf hg => by
        have hf2 : f = "secretA" := by simpa using hf
        subst hf2
        have hval : assocGet docC7 "secretA" = some (JVal.str "hush-a") := by
          decide
        rw [hval] at hg
        injection hg with h1
        injection h1 with h2
        subst h2
        decide)
      (by decide)).2 "public" (by decide)⟩

/-- The credential record `storeCredential` builds from its arguments. -/
def storedCred (svc : EncryptionService) (g : Gen)
    (U k v ctype provider : String) (exp : Option Nat) : EncryptedCredential :=
  { value := svc.encrypt g.iv g.now v exp
    credential_type := ctype, provider := provider
    metaCreatedBy := U, metaProvider := provider, metaKeyName := k }

/-- The context document `storeCredential` hands to `saveSecretContext`
when a context `C` already exists. -/
def storedCtx (svc : EncryptionService) (g : Gen)
    (U k v ctype provider : String) (exp : Option Nat) (C : CtxDoc) : CtxDoc :=
  { C with
    credentials := C.credentials.set k (storedCred svc g U k v ctype provider exp)
    updated_at := g.now }

/-- C10: when a context `C` already exists for the workspace and user, the
context `storeCredential` persists is exactly `C` with the `credentials`
entry for the stored key upserted and `updated_at` refreshed: the stored
rows are those of saving that document, the new entry reads back as the
built credential, every other `credentials` entry is unchanged, and
`ssh_keys`, `certificates`, `api_keys`, `id`, `workspace_id`, `user_id` and
`created_at` are untouched. -/
theorem storeCredential_frame (svc : EncryptionService) (g : Gen)
    (st : SysState) (W U k v ctype provider : String) (exp : Option Nat)
    (C : CtxDoc) (h : (getSecretContextM st W U).1 = some C) :
    (storeCredentialM svc g st W U k v ctype provider exp).1.db.secret_contexts
      = (saveSecretContextM svc g (getSecretContextM st W U).2.1
          (storedCtx svc g U k v ctype provider exp C)).1.db.secret_contexts ∧
    ((storedCtx svc g U k v ctype provider exp C).credentials.hit k
      = some (.entry (storedCred svc g U k v ctype provider exp))) ∧
    (∀ k2, k2 ≠ k →
      (storedCtx svc g U k v ctype provider exp C).credentials.hit k2
        = C.credentials.hit k2) ∧
    ((storedCtx svc g U k v ctype provider exp C).ssh_keys = C.ssh_keys ∧
     (storedCtx svc g U k v ctype provider exp C).certificates = C.certificates ∧
     (storedCtx svc g U k v ctype provider exp C).api_keys = C.api_keys ∧
     (storedCtx svc g U k v ctype provider exp C).id = C.id ∧
     (storedCtx svc g U k v ctype provider exp C).workspace_id = C.workspace_id ∧
     (storedCtx svc g U k v ctype provider exp C).user_id = C.user_id ∧
     (storedCtx svc g U k v ctype provider exp C).created_at = C.created_at ∧
     (storedCtx svc g U k v ctype provider exp C).updated_at = g.now) := by
  refine ⟨?_, KindField.hit_set_self .., fun k2 hk2 =>
    KindField.hit_set_ne _ _ _ _ (Ne.symm hk2),
    rfl, rfl, rfl, rfl, rfl, rfl, rfl, rfl⟩
  simp only [storeCredentialM, h]
  rw [cacheDeleteS_db]
  simp only [createAuditLogM]
  rfl

/-- An existing empty context, served from the cache. -/
def ctxW : CtxDoc := createEmptySecretContextM genT "W1" "U1"

def stW : SysState :=
  { db := { secret_contexts := [], audit_logs := [] }
    cache := [(generateCacheKey "secret_context" ["W1", "U1"], ctxW)]
    cacheOk := true }

theorem storeCredential_frame_witness :
    ((storeCredentialM svcT genT2 stW "W1" "U1" "k1" "v1" "api_key" "p1"
        none).1.db.secret_contexts
      = (saveSecretContextM svcT genT2 (getSecretContextM stW "W1" "U1").2.1
          (storedCtx svcT genT2 "U1" "k1" "v1" "api_key" "p1" none
            ctxW)).1.db.secret_contexts) ∧
    ((storedCtx svcT genT2 "U1" "k1" "v1" "api_key" "p1" none
        ctxW).credentials.hit "k1"
      = some (.entry (storedCred svcT genT2 "U1" "k1" "v1" "api_key" "p1"
          none))) ∧
    ((storedCtx svcT genT2 "U1" "k1" "v1" "api_key" "p1" none
        ctxW).credentials.hit "other" = ctxW.credentials.hit "other") ∧
    (storedCtx svcT genT2 "U1" "k1" "v1" "api_key" "p1" none ctxW).ssh_keys
      = ctxW.ssh_keys :=
  ⟨(storeCredential_frame svcT genT2 stW "W1" "U1" "k1" "v1" "api_key" "p1"
      none ctxW (by decide)).1,
   (storeCredential_frame svcT genT2 stW "W1" "U1" "k1" "v1" "api_key" "p1"
      none ctxW (by decide)).2.1,
   (storeCredential_frame svcT genT2 stW "W1" "U1" "k1" "v1" "api_key" "p1"
      none ctxW (by decide)).2.2.1 "other" (by decide),
   (storeCredential_frame svcT genT2 stW "W1" "U1" "k1" "v1" "api_key" "p1"
      none ctxW (by decide)).2.2.2.1⟩

/-- A context document holding one plainly stored credential, and a system
whose store holds it with an empty, healthy cache. -/
def credO : EncryptedCredential :=
  storedCred svcT genT "U1" "other" "v0" "api_key" "p0" none

def ctxC8 : CtxDoc :=
  { id := "c8", workspace_id := "W1", user_id := "U1", api_keys := []
    credentials := .map [("other", credO)], ssh_keys := .map []
    certificates := .map [], created_at := 0, updated_at := 0
    encrypted_fields := none }

def stC8 : SysState :=
  { db := { secret_contexts := [ctxC8], audit_logs := [] }, cache := []
    cacheOk := true }

/-- C8 counterexample: deleting an absent key does return `false` and
appends no audit entry, but it does not leave the cache unchanged — the
read-through `getSecretContext` probe populates the cache with the loaded
context before the absence check. -/
theorem deleteSecret_absent_fills_cache :
    (deleteSecretM svcT genT stC8 "W1" "U1" SecretType.credential
        "nope").1 = false ∧
    (deleteSecretM svcT genT stC8 "W1" "U1" SecretType.credential
        "nope").2.1.cache ≠ stC8.cache :=
  ⟨by decide, by decide⟩

/-- An SSH-key entry and a certificate entry stored in plain map form, and
stores holding one context each with such an entry, for the witness runs. -/
def sshK8 : EncryptedSSHKey :=
  { value := svcT.encrypt 3 7 "PRIVK" none, key_type := "ed25519"
    public_key := "PUB", fingerprint := generateSSHFingerprintM svcT "PUB"
    metadata := { description := none, allowed_hosts := none } }

def ctxC8s : CtxDoc :=
  { id := "c8s", workspace_id := "W1", user_id := "U1", api_keys := []
    credentials := .map [], ssh_keys := .map [("deploy", sshK8)]
    certificates := .map [], created_at := 0, updated_at := 0
    encrypted_fields := none }

def stC8s : SysState :=
  { db := { secret_contexts := [ctxC8s], audit_logs := [] }, cache := []
    cacheOk := true }

def certC8 : EncryptedCertificate :=
  { value := svcT.encrypt 4 7 "CERTPEM" none, certificate_type := "x509"
    common_name := "example.com", expires_at := 999 }

def ctxC8c : CtxDoc :=
  { id := "c8c", workspace_id := "W1", user_id := "U1", api_keys := []
    credentials := .map [], ssh_keys := .map []
    certificates := .map [("tls", certC8)], created_at := 0, updated_at := 0
    encrypted_fields := none }

def stC8c : SysState :=
  { db := { secret_contexts := [ctxC8c], audit_logs := [] }, cache := []
    cacheOk := true }

/-- C8 (amended): `deleteSecret` with no owning context returns `false` and
changes nothing; with a context but an absent entry it returns `false`,
appends no audit entry and leaves the store unchanged, but the cache may
have been populated by the read-through load; with a present entry of any
of the three kinds — the context's collection for that kind in plain map
form, the only form in which named secret entries exist (a reloaded
collection is an envelope object holding no entries, the C1 analysis) — it
returns `true`, removes exactly that entry from the persisted document,
persists it, appends an audit entry whose `old_value_hash` is the hash of
the pre-deletion JSON serialisation, and — over a duplicate-free healthy
cache — leaves no cache entry for the workspace/user key. -/
theorem deleteSecret_contract (svc : EncryptionService) (g : Gen)
    (st : SysState) (W U k : String) (stype : SecretType) :
    ((getSecretContextM st W U).1 = none →
      (deleteSecretM svc g st W U stype k).1 = false ∧
      (deleteSecretM svc g st W U stype k).2.1 = st) ∧
    (∀ C, (getSecretContextM st W U).1 = some C →
      deleteHitJVal C stype k = none →
      (deleteSecretM svc g st W U stype k).1 = false ∧
      (deleteSecretM svc g st W U stype k).2.1.db = st.db ∧
      ((deleteSecretM svc g st W U stype k).2.1.cache = st.cache ∨
       (deleteSecretM svc g st W U stype k).2.1.cache
         = assocSet st.cache (generateCacheKey "secret_context" [W, U]) C)) ∧
    (∀ C m c, stype = SecretType.credential →
      (getSecretContextM st W U).1 = some C →
      C.credentials = .map m → assocGet m k = some c →
      (deleteSecretM svc g st W U stype k).1 = true ∧
      (deleteSecretM svc g st W U stype k).2.1.db.audit_logs
        = st.db.audit_logs
          ++ [mkAuditLog g W U "delete_secret" k "success"
              (some (svc.hash (jsonStringify c.toJVal))) none none] ∧
      (deleteSecretM svc g st W U stype k).2.1.db.secret_contexts
        = (saveSecretContextM svc g (getSecretContextM st W U).2.1
            { C with
              credentials := .map (assocErase m k)
              updated_at := g.now }).1.db.secret_contexts ∧
      (∀ k2, k2 ≠ k →
        (KindField.map (assocErase m k) : KindField EncryptedCredential).hit k2
          = (KindField.map m).hit k2) ∧
      ((m.map Prod.fst).Nodup →
        (KindField.map (assocErase m k) : KindField EncryptedCredential).hit k
          = none) ∧
      (st.cacheOk = true → (st.cache.map Prod.fst).Nodup →
        assocGet (deleteSecretM svc g st W U stype k).2.1.cache
          (generateCacheKey "secret_context" [W, U]) = none)) ∧
    (∀ C m c, stype = SecretType.ssh_key →
      (getSecretContextM st W U).1 = some C →
      C.ssh_keys = .map m → assocGet m k = some c →
      (deleteSecretM svc g st W U stype k).1 = true ∧
      (deleteSecretM svc g st W U stype k).2.1.db.audit_logs
        = st.db.audit_logs
          ++ [mkAuditLog g W U "delete_secret" k "success"
              (some (svc.hash (jsonStringify c.toJVal))) none none] ∧
      (deleteSecretM svc g st W U stype k).2.1.db.secret_contexts
        = (saveSecretContextM svc g (getSecretContextM st W U).2.1
            { C with
              ssh_keys := .map (assocErase m k)
              updated_at := g.now }).1.db.secret_contexts ∧
      (∀ k2, k2 ≠ k →
        (KindField.map (assocErase m k) : KindField EncryptedSSHKey).hit k2
          = (KindField.map m).hit k2) ∧
      ((m.map Prod.fst).Nodup →
        (KindField.map (assocErase m k) : KindField EncryptedSSHKey).hit k
          = none) ∧
      (st.cacheOk = true → (st.cache.map Prod.fst).Nodup →
        assocGet (deleteSecretM svc g st W U stype k).2.1.cache
          (generateCacheKey "secret_context" [W, U]) = none)) ∧
    (∀ C m c, stype = SecretType.certificate →
      (getSecretContextM st W U).1 = some C →
      C.certificates = .map m → assocGet m k = some c →
      (deleteSecretM svc g st W U stype k).1 = true ∧
      (deleteSecretM svc g st W U stype k).2.1.db.audit_logs
        = st.db.audit_logs
          ++ [mkAuditLog g W U "delete_secret" k "success"
              (some (svc.hash (jsonStringify c.toJVal))) none none] ∧
      (deleteSecretM svc g st W U stype k).2.1.db.secret_contexts
        = (saveSecretContextM svc g (getSecretContextM st W U).2.1
            { C with
              certificates := .map (assocErase m k)
              updated_at := g.now }).1.db.secret_contexts ∧
      (∀ k2, k2 ≠ k →
        (KindField.map (assocErase m k) : KindField EncryptedCertificate).hit k2
          = (KindField.map m).hit k2) ∧
      ((m.map Prod.fst).Nodup →
        (KindField.map (assocErase m k) : KindField EncryptedCertificate).hit k
          = none) ∧
      (st.cacheOk = true → (st.cache.map Prod.fst).Nodup →
        assocGet (deleteSecretM svc g st W U stype k).2.1.cache
          (generateCacheKey "secret_context" [W, U]) = none)) := by
  refine ⟨?_, ?_, ?_, ?_, ?_⟩
  · intro h
    refine ⟨by simp [deleteSecretM, h], ?_⟩
    simp only [deleteSecretM, h]
    exact getSecretContextM_none_state st W U h
  · intro C hC hHit
    refine ⟨by simp [deleteSecretM, hC, hHit], ?_, ?_⟩
    · simp only [deleteSecretM, hC, hHit]
      exact getSecretContextM_db st W U
    · simp only [deleteSecretM, hC, hHit]
      rcases getSecretContextM_some_state st W U C hC with h | h
      · exact Or.inl (by rw [h])
      · exact Or.inr h
  · intro C m c hty hC hmap hget
    subst hty
    have hHit : deleteHitJVal C SecretType.credential k
        = some (c.toJVal, true) := by
      simp [deleteHitJVal, KindField.hit, hmap, hget]
    have herase : C.credentials.erase k
        = KindField.map (assocErase m k) := by
      rw [hmap]
      rfl
    refine ⟨?_, ?_, ?_, ?_, ?_, ?_⟩
    · simp [deleteSecretM, hC, hHit, herase]
    · simp only [deleteSecretM, hC, hHit, herase, eq_self_iff_true, if_true]
      rw [cacheDeleteS_db]
      simp only [createAuditLogM]
      rw [saveSecretContextM_db_audit, getSecretContextM_audit]
    · simp only [deleteSecretM, hC, hHit, herase, eq_self_iff_true, if_true]
      rw [cacheDeleteS_db]
      simp only [createAuditLogM]
    · intro k2 hk2
      exact KindField.hit_erase_ne (KindField.map m) k k2 (Ne.symm hk2)
    · intro hnd
      exact KindField.hit_erase_self_map m k hnd
    · intro hok hnd
      simp only [deleteSecretM, hC, hHit, herase, eq_self_iff_true, if_true]
      apply cacheDeleteS_get_none
      · rw [createAuditLogM_cacheOk, saveSecretContextM_cacheOk,
          getSecretContextM_cacheOk]
        exact hok
      · rw [createAuditLogM_cache, saveSecretContextM_cache]
        exact getSecretContextM_cache_nodup st W U hnd
  · intro C m c hty hC hmap hget
    subst hty
    have hHit : deleteHitJVal C SecretType.ssh_key k
        = some (c.toJVal, true) := by
      simp [deleteHitJVal, KindField.hit, hmap, hget]
    have herase : C.ssh_keys.erase k
        = KindField.map (assocErase m k) := by
      rw [hmap]
      rfl
    refine ⟨?_, ?_, ?_, ?_, ?_, ?_⟩
    · simp [deleteSecretM, hC, hHit, herase]
    · simp only [deleteSecretM, hC, hHit, herase, eq_self_iff_true, if_true]
      rw [cacheDeleteS_db]
      simp only [createAuditLogM]
      rw [saveSecretContextM_db_audit, getSecretContextM_audit]
    · simp only [deleteSecretM, hC, hHit, herase, eq_self_iff_true, if_true]
      rw [cacheDeleteS_db]
      simp only [createAuditLogM]
    · intro k2 hk2
      exact KindField.hit_erase_ne (KindField.map m) k k2 (Ne.symm hk2)
    · intro hnd
      exact KindField.hit_erase_self_map m k hnd
    · intro hok hnd
      simp only [deleteSecretM, hC, hHit, herase, eq_self_iff_true, if_true]
      apply cacheDeleteS_get_none
      · rw [createAuditLogM_cacheOk, saveSecretContextM_cacheOk,
          getSecretContextM_cacheOk]
        exact hok
      · rw [createAuditLogM_cache, saveSecretContextM_cache]
        exact getSecretContextM_cache_nodup st W U hnd
  · intro C m c hty hC hmap hget
    subst hty
    have hHit : deleteHitJVal C SecretType.certificate k
        = some (c.toJVal, true) := by
      simp [deleteHitJVal, KindField.hit, hmap, hget]
    have herase : C.certificates.erase k
        = KindField.map (assocErase m k) := by
      rw [hmap]
      rfl
    refine ⟨?_, ?_, ?_, ?_, ?_, ?_⟩
    · simp [deleteSecretM, hC, hHit, herase]
    · simp only [deleteSecretM, hC, hHit, herase, eq_self_iff_true, if_true]
      rw [cacheDeleteS_db]
      simp only [createAuditLogM]
      rw [saveSecretContextM_db_audit, getSecretContextM_audit]
    · simp only [deleteSecretM, hC, hHit, herase, eq_self_iff_true, if_true]
      rw [cacheDeleteS_db]
      simp only [createAuditLogM]
    · intro k2 hk2
      exact KindField.hit_erase_ne (KindField.map m) k k2 (Ne.symm hk2)
    · intro hnd
      exact KindField.hit_erase_self_map m k hnd
    · intro hok hnd
      simp only [deleteSecretM, hC, hHit, herase, eq_self_iff_true, if_true]
      apply cacheDeleteS_get_none
      · rw [createAuditLogM_cacheOk, saveSecretContextM_cacheOk,
          getSecretContextM_cacheOk]
        exact hok
      · rw [createAuditLogM_cache, saveSecretContextM_cache]
        exact getSecretContextM_cache_nodup st W U hnd

theorem deleteSecret_contract_witness :
    ((deleteSecretM svcT genT st0 "W1" "U1" SecretType.credential "k").1
        = false ∧
     (deleteSecretM svcT genT st0 "W1" "U1" SecretType.credential "k").2.1
        = st0) ∧
    ((deleteSecretM svcT genT stC8 "W1" "U1" SecretType.credential
        "other").1 = true ∧
     assocGet (deleteSecretM svcT genT stC8 "W1" "U1" SecretType.credential
        "other").2.1.cache
       (generateCacheKey "secret_context" ["W1", "U1"]) = none) ∧
    (deleteSecretM svcT genT stC8s "W1" "U1" SecretType.ssh_key
        "deploy").1 = true ∧
    (deleteSecretM svcT genT stC8c "W1" "U1" SecretType.certificate
        "tls").1 = true :=
  ⟨(deleteSecret_contract svcT genT st0 "W1" "U1" "k"
      SecretType.credential).1 (by decide),
   ⟨((deleteSecret_contract svcT genT stC8 "W1" "U1" "other"
        SecretType.credential).2.2.1 ctxC8 [("other", credO)] credO rfl
        (by decide) rfl (by decide)).1,
    ((deleteSecret_contract svcT genT stC8 "W1" "U1" "other"
        SecretType.credential).2.2.1 ctxC8 [("other", credO)] credO rfl
        (by decide) rfl (by decide)).2.2.2.2.2 (by decide) (by decide)⟩,
   ((deleteSecret_contract svcT genT stC8s "W1" "U1" "deploy"
        SecretType.ssh_key).2.2.2.1 ctxC8s [("deploy", sshK8)] sshK8 rfl
        (by decide) rfl (by decide)).1,
   ((deleteSecret_contract svcT genT stC8c "W1" "U1" "tls"
        SecretType.certificate).2.2.2.2 ctxC8c [("tls", certC8)] certC8 rfl
        (by decide) rfl (by decide)).1⟩

/-- C9: cache failures never propagate.  At the `DatabaseClient` level a
throwing backend makes `cacheGet` return `null` (a miss) — including a
throwing `JSON.parse` of a cached payload — and `cacheSet`/`cacheDelete`
return normally with the stored map unchanged; at the service level every
secret-context operation run against a failing cache backend returns the
same value and produces the same stored tables as against a healthy empty
cache, so no operation ever fails because of the cache. -/
theorem cache_failures_never_propagate :
    (∀ (mem : List (String × String)) (r : RedisOutcomes)
        (parse : String → JSOutcome CtxDoc) (key m : String),
      r.getO = .threw m → dbCacheGet false mem r parse key = none) ∧
    (∀ (mem : List (String × String)) (r : RedisOutcomes)
        (parse : String → JSOutcome CtxDoc) (key s m : String),
      assocGet mem key = some s → parse s = .threw m →
      dbCacheGet true mem r parse key = none) ∧
    (∀ (mem : List (String × String)) (r : RedisOutcomes)
        (ser : JSOutcome String) (key m : String),
      r.setO = .threw m → dbCacheSet false mem r ser key = mem) ∧
    (∀ (useMem : Bool) (mem : List (String × String)) (r : RedisOutcomes)
        (key m : String),
      dbCacheSet useMem mem r (.threw m) key = mem) ∧
    (∀ (mem : List (String × String)) (r : RedisOutcomes) (key m : String),
      r.delO = .threw m → dbCacheDelete false mem r key = mem) ∧
    (∀ (svc : EncryptionService) (g : Gen) (st : SysState)
        (W U k v ctype provider : String) (exp : Option Nat),
      st.cacheOk = false →
      (storeCredentialM svc g st W U k v ctype provider exp).1.db
        = (storeCredentialM svc g { st with cache := [], cacheOk := true }
            W U k v ctype provider exp).1.db) ∧
    (∀ (svc : EncryptionService) (g : Gen) (st : SysState) (W U k : String),
      st.cacheOk = false →
      (getCredentialM svc g st W U k).1
        = (getCredentialM svc g { st with cache := [], cacheOk := true }
            W U k).1) ∧
    (∀ (svc : EncryptionService) (g : Gen) (st : SysState)
        (W U kn pk pub kt : String) (md : Option SSHKeyMetadata),
      st.cacheOk = false →
      (storeSSHKeyM svc g st W U kn pk pub kt md).1.db
        = (storeSSHKeyM svc g { st with cache := [], cacheOk := true }
            W U kn pk pub kt md).1.db) ∧
    (∀ (svc : EncryptionService) (g : Gen) (st : SysState) (W U : String)
        (ty : SecretType) (k : String),
      st.cacheOk = false →
      (deleteSecretM svc g st W U ty k).1
        = (deleteSecretM svc g { st with cache := [], cacheOk := true }
            W U ty k).1 ∧
      (deleteSecretM svc g st W U ty k).2.1.db
        = (deleteSecretM svc g { st with cache := [], cacheOk := true }
            W U ty k).2.1.db) := by
  refine ⟨?_, ?_, ?_, ?_, ?_, ?_, ?_, ?_, ?_⟩
  · intro mem r parse key m hg
    simp [dbCacheGet, cacheGetTry, hg]
  · intro mem r parse key s m hget hparse
    by_cases hs : s = "" <;>
      simp [dbCacheGet, cacheGetTry, hget, hparse, hs]
  · intro mem r ser key m hset
    cases ser <;> simp [dbCacheSet, cacheSetTry, hset]
  · intro useMem mem r key m
    simp [dbCacheSet, cacheSetTry]
  · intro mem r key m hdel
    simp [dbCacheDelete, cacheDeleteTry, hdel]
  · intro svc g st W U k v ctype provider exp h
    exact storeCredentialM_cacheDown svc g st W U k v ctype provider exp h
  · intro svc g st W U k h
    exact getCredentialM_cacheDown svc g st W U k h
  · intro svc g st W U kn pk pub kt md h
    exact storeSSHKeyM_cacheDown svc g st W U kn pk pub kt md h
  · intro svc g st W U ty k h
    exact deleteSecretM_cacheDown svc g st W U ty k h

/-- A backend that throws on every call. -/
def rBad : RedisOutcomes :=
  { getO := .threw "boom", setO := .threw "boom", delO := .threw "boom" }

/-- The C8 store with a failing cache backend. -/
def stDown : SysState :=
  { db := stC8.db, cache := [], cacheOk := false }

theorem cache_failures_never_propagate_witness :
    dbCacheGet false [] rBad
      (fun _ => (JSOutcome.threw "bad json" : JSOutcome CtxDoc))
      "cv:context:k" = none ∧
    dbCacheSet false [("a", "b")] rBad (.ok "payload") "k" = [("a", "b")] ∧
    dbCacheDelete false [("a", "b")] rBad "k" = [("a", "b")] ∧
    (getCredentialM svcT genT stDown "W1" "U1" "other").1
      = (getCredentialM svcT genT { stDown with cache := [], cacheOk := true }
          "W1" "U1" "other").1 :=
  ⟨cache_failures_never_propagate.1 [] rBad
      (fun _ => (JSOutcome.threw "bad json" : JSOutcome CtxDoc))
      "cv:context:k" "boom" rfl,
   cache_failures_never_propagate.2.2.1 [("a", "b")] rBad (.ok "payload")
      "k" "boom" rfl,
   cache_failures_never_propagate.2.2.2.2.1 [("a", "b")] rBad "k" "boom" rfl,
   cache_failures_never_propagate.2.2.2.2.2.2.1 svcT genT stDown
      "W1" "U1" "other" rfl⟩

end CVCM